import Mathlib

/-!
Shallow embedding of the ReUntangle dependency-graph analysis engine:
parser complexity scoring (`componentParser.ts`), graph construction with
depth and cycle computation (`graphBuilder.ts`), tree layout
(`layoutAlgorithm.ts`) and the focused-subgraph extractor
(`ScouterModeService`).  JavaScript `Map`s are embedded as insertion-ordered
association lists, JavaScript `Set`s as `Finset String`, numbers as `Nat`/`Int`
with exact rational arithmetic for the weighted score, and recursive DFS/BFS
walks as fuelled recursion (the fuel is always chosen at call sites so that it
is not exhausted in any run the theorems below talk about).
-/

namespace ReUntangle

/-- `ImportInfo` from `types/index.ts`: one `import` statement. -/
structure ImportInfo where
  source : String
  specifiers : List String
  isReactComponent : Bool
  deriving DecidableEq, Repr

/-- `HookUsage`: one hook name with its occurrence count. -/
structure HookUsage where
  name : String
  count : Nat
  deriving DecidableEq, Repr

/-- `ComponentInfo` (the fields the graph builder and the claims need). -/
structure ComponentInfo where
  id : String
  name : String
  filePath : String
  kind : String
  dependencies : List String
  imports : List ImportInfo
  linesOfCode : Nat
  hooks : List HookUsage
  propsCount : Nat
  complexity : Int
  deriving DecidableEq, Repr

/-- `DependencyNode` from `types/index.ts`. -/
structure DependencyNode where
  id : String
  component : ComponentInfo
  dependencies : List String
  dependents : List String
  depth : Nat
  complexity : Int
  deriving DecidableEq, Repr

/-- `DependencyEdge`; `fromId`/`toId` embed the `from`/`to` fields. -/
structure DependencyEdge where
  fromId : String
  toId : String
  strength : Nat
  deriving DecidableEq, Repr

/-- A JavaScript `Map<string, α>`: insertion-ordered association list where
`set` overwrites in place and `get` finds the first (hence only) binding. -/
abbrev JsMap (α : Type) : Type := List (String × α)

/-- `Map.get`, returning `none` for a missing key (`undefined`). -/
def mapGet {α : Type} (m : JsMap α) (k : String) : Option α :=
  match m with
  | [] => none
  | (k', v) :: rest => if k' = k then some v else mapGet rest k

/-- `Map.set`: overwrite the existing binding in place, else append. -/
def mapSet {α : Type} (m : JsMap α) (k : String) (v : α) : JsMap α :=
  match m with
  | [] => [(k, v)]
  | (k', v') :: rest => if k' = k then (k', v) :: rest else (k', v') :: mapSet rest k v

/-- `Map.keys()` in insertion order. -/
def mapKeys {α : Type} (m : JsMap α) : List String := m.map (·.1)

/-- `Map.size`. -/
def mapSize {α : Type} (m : JsMap α) : Nat := m.length

/-- The argument record of `ComponentParser.calculateComplexity`. -/
structure ComplexityMetrics where
  linesOfCode : Nat
  dependencyCount : Nat
  hooksCount : Nat
  propsCount : Nat
  externalLibraryCount : Nat
  deriving DecidableEq, Repr

/-- `ComponentParser.calculateComplexity` (componentParser.ts:678-702):
five sub-scores each clamped to 100, a weighted sum with a fixed base term,
`Math.round(Math.min(100, complexity))`.  `Math.round` is `⌊x + 1/2⌋`,
which is Mathlib's `round` on `ℚ`. -/
def calculateComplexity (m : ComplexityMetrics) : Int :=
  let locScore : ℚ := min 100 ((m.linesOfCode : ℚ) / 200 * 100)
  let depScore : ℚ := min 100 ((m.dependencyCount : ℚ) / 10 * 100)
  let hooksScore : ℚ := min 100 ((m.hooksCount : ℚ) / 10 * 100)
  let propsScore : ℚ := min 100 ((m.propsCount : ℚ) / 15 * 100)
  let libScore : ℚ := min 100 ((m.externalLibraryCount : ℚ) / 5 * 100)
  let complexity : ℚ :=
    locScore * 0.25 + depScore * 0.2 + hooksScore * 0.2 +
      propsScore * 0.15 + libScore * 0.05 + 20 * 0.2
  round (min 100 complexity)

/-- The spec's wording of the same score, for comparison with the code: each
input normalized to `[0,100]` by `min(100, value/cap*100)` against the caps
200, 10, 10, 15, 5, combined with weights 0.25/0.20/0.20/0.15/0.05 plus the
fixed `0.20·20` base term, rounded to the nearest integer and then clamped
to 100. -/
def specComplexityScore (m : ComplexityMetrics) : Int :=
  let norm : Nat → Nat → ℚ := fun value cap => min 100 ((value : ℚ) / (cap : ℚ) * 100)
  min 100 (round
    (0.25 * norm m.linesOfCode 200 + 0.20 * norm m.dependencyCount 10 +
      0.20 * norm m.hooksCount 10 + 0.15 * norm m.propsCount 15 +
      0.05 * norm m.externalLibraryCount 5 + 0.20 * 20))

/-- The raw weighted rational sum, shared between the two score definitions. -/
def rawComplexity (m : ComplexityMetrics) : ℚ :=
  min 100 ((m.linesOfCode : ℚ) / 200 * 100) * 0.25 +
    min 100 ((m.dependencyCount : ℚ) / 10 * 100) * 0.2 +
    min 100 ((m.hooksCount : ℚ) / 10 * 100) * 0.2 +
    min 100 ((m.propsCount : ℚ) / 15 * 100) * 0.15 +
    min 100 ((m.externalLibraryCount : ℚ) / 5 * 100) * 0.05 + 20 * 0.2

/-- `DependencyGraph` from `types/index.ts`. -/
structure DependencyGraph where
  nodes : JsMap DependencyNode
  edges : List DependencyEdge

/-- The first loop of `GraphBuilder.buildGraph`: one fresh node per
component, keyed by component id (`Map.set` overwrites duplicates). -/
def buildNodesInit (components : List ComponentInfo) : JsMap DependencyNode :=
  components.foldl
    (fun m c =>
      mapSet m c.id
        { id := c.id, component := c, dependencies := [], dependents := [],
          depth := 0, complexity := c.complexity })
    []

/-- The `name → id` map of `buildGraph` (last writer wins). -/
def buildNameToId (components : List ComponentInfo) : JsMap String :=
  components.foldl (fun m c => mapSet m c.name c.id) []

/-- The `edges.find`-and-increment upsert inside `buildGraph`: bump the
strength of the first existing `(from,to)` edge, else push a new one with
strength 1. -/
def addEdgeUpsert (edges : List DependencyEdge) (f t : String) : List DependencyEdge :=
  match edges with
  | [] => [⟨f, t, 1⟩]
  | e :: rest =>
    if e.fromId = f ∧ e.toId = t then ⟨e.fromId, e.toId, e.strength + 1⟩ :: rest
    else e :: addEdgeUpsert rest f t

/-- One iteration of the inner dependency loop of `buildGraph`: resolve the
name; on success (JS truthiness: the id must be non-empty) and unless it is a
self-reference, push the dependency, push the reverse dependent link, and
upsert the edge.  The node objects live in the map, so the JS in-place pushes
are map updates here. -/
def processDep (nameToId : JsMap String) (cid : String)
    (st : JsMap DependencyNode × List DependencyEdge) (depName : String) :
    JsMap DependencyNode × List DependencyEdge :=
  match mapGet nameToId depName with
  | none => st
  | some depId =>
    if depId ≠ "" ∧ depId ≠ cid then
      let nodes1 :=
        match mapGet st.1 cid with
        | some node => mapSet st.1 cid { node with dependencies := node.dependencies ++ [depId] }
        | none => st.1
      let nodes2 :=
        match mapGet nodes1 depId with
        | some depNode => mapSet nodes1 depId { depNode with dependents := depNode.dependents ++ [cid] }
        | none => nodes1
      (nodes2, addEdgeUpsert st.2 cid depId)
    else st

/-- The state threaded through `GraphBuilder.calculateDepths`. -/
structure DepthSt where
  nodes : JsMap DependencyNode
  visited : Finset String
  temp : Finset String

/-- The recursive `visit` of `calculateDepths` (graphBuilder.ts:81-115): a
node already in the temp set stops the recursion at the current depth; a
visited node returns its memoized depth; otherwise the node's depth becomes
the max of the entry depth and the values returned for its dependencies
(each visited at `depth + 1`).  The fuel only bounds the recursion depth and
is chosen at the call site (`map size + 1`) so that it is never exhausted on
graphs whose dependency ids are node keys, which `buildGraph` guarantees. -/
def depthVisit : Nat → String → Nat → DepthSt → DepthSt × Nat
  | 0, _, depth, st => (st, depth)
  | fuel' + 1, nodeId, depth, st =>
    if nodeId ∈ st.temp then (st, depth)
    else if nodeId ∈ st.visited then
      (st, (mapGet st.nodes nodeId).elim 0 (·.depth))
    else
      let st1 : DepthSt := { st with temp := insert nodeId st.temp }
      match mapGet st1.nodes nodeId with
      | none => (st1, depth)
      | some node =>
        let r := node.dependencies.foldl
          (fun acc d =>
            let r2 := depthVisit fuel' d (depth + 1) acc.1
            (r2.1, max acc.2 r2.2))
          (st1, depth)
        let nodes' :=
          match mapGet r.1.nodes nodeId with
          | some n2 => mapSet r.1.nodes nodeId { n2 with depth := r.2 }
          | none => r.1.nodes
        ({ nodes := nodes', visited := insert nodeId r.1.visited,
           temp := r.1.temp.erase nodeId }, r.2)

/-- `GraphBuilder.calculateDepths`: visit every not-yet-visited key in
insertion order. -/
def calculateDepths (nodes : JsMap DependencyNode) : JsMap DependencyNode :=
  let fuel := mapSize nodes + 1
  ((mapKeys nodes).foldl
      (fun st nodeId =>
        if nodeId ∈ st.visited then st else (depthVisit fuel nodeId 0 st).1)
      { nodes := nodes, visited := ∅, temp := ∅ }).nodes

/-- `GraphBuilder.buildGraph` (graphBuilder.ts:40-75): create nodes, build the
name map, resolve dependencies into links and edges, then compute depths. -/
def buildGraph (components : List ComponentInfo) : DependencyGraph :=
  let nodes0 := buildNodesInit components
  let nameToId := buildNameToId components
  let st := components.foldl
    (fun st c => c.dependencies.foldl (processDep nameToId c.id) st) (nodes0, [])
  { nodes := calculateDepths st.1, edges := st.2 }

/-- The memoized depth of a node in a built graph (0 for a missing id). -/
def depthOf (g : DependencyGraph) (id : String) : Nat :=
  (mapGet g.nodes id).elim 0 (·.depth)

/-- The state threaded through `GraphBuilder.detectCircularDependencies`.
The recursion stack is kept as the actual call chain (most recent first);
the JS code stores it as a `Set` but only ever queries membership, adds the
current node on entry and deletes it on exit, so the list is that set. -/
structure CycSt where
  circularNodes : Finset String
  visited : Finset String
  recursionStack : List String

/-- The recursive `dfs` of `detectCircularDependencies`
(graphBuilder.ts:230-268): a node found on the recursion stack is marked
circular and `true` is returned; the caller marks itself when a dependency
call returns `true`; the function returns `false` after its loop, so the
mark does not propagate further up the chain. -/
def cycDfs (g : DependencyGraph) : Nat → String → CycSt → CycSt × Bool
  | 0, _, st => (st, false)
  | fuel' + 1, nodeId, st =>
    if nodeId ∈ st.recursionStack then
      ({ st with circularNodes := insert nodeId st.circularNodes }, true)
    else if nodeId ∈ st.visited then (st, false)
    else
      let st1 : CycSt :=
        { st with visited := insert nodeId st.visited,
                  recursionStack := nodeId :: st.recursionStack }
      let st2 :=
        match mapGet g.nodes nodeId with
        | none => st1
        | some node =>
          node.dependencies.foldl
            (fun s d =>
              let r := cycDfs g fuel' d s
              if r.2 then { r.1 with circularNodes := insert nodeId r.1.circularNodes }
              else r.1)
            st1
      ({ st2 with recursionStack := st2.recursionStack.erase nodeId }, false)

/-- `GraphBuilder.detectCircularDependencies`: run the DFS from every
not-yet-visited key. -/
def detectCircularDependencies (g : DependencyGraph) : Finset String :=
  let fuel := mapSize g.nodes + 1
  ((mapKeys g.nodes).foldl
      (fun st nodeId =>
        if nodeId ∈ st.visited then st else (cycDfs g fuel nodeId st).1)
      { circularNodes := ∅, visited := ∅, recursionStack := [] }).circularNodes

/-- One dependency step in a built graph: `b` appears in the dependency list
of the node stored for `a`. -/
def Adj (g : DependencyGraph) (a b : String) : Prop :=
  ∃ n, mapGet g.nodes a = some n ∧ b ∈ n.dependencies

/-- A node participates in a dependency cycle: a nonempty dependency path
from it back to itself. -/
def OnCycle (g : DependencyGraph) (v : String) : Prop :=
  Relation.TransGen (Adj g) v v

/-- The chain shape of the DFS recursion stack: each stack entry is a
dependency of the entry below it (the list head is the most recent call). -/
def StackChain (g : DependencyGraph) : List String → Prop
  | [] => True
  | [_] => True
  | a :: b :: t => Adj g b a ∧ StackChain g (b :: t)

/-- A minimal component record for concrete test graphs. -/
def mkComp (id name : String) (deps : List String) : ComponentInfo :=
  { id := id, name := name, filePath := "src/" ++ name ++ ".tsx",
    kind := "function", dependencies := deps, imports := [],
    linesOfCode := 10, hooks := [], propsCount := 0, complexity := 30 }

/-- The linear chain `A→B→C` (A depends on B, B depends on C). -/
def chainComps : List ComponentInfo :=
  [mkComp "A" "A" ["B"], mkComp "B" "B" ["C"], mkComp "C" "C" []]

/-- The two-cycle `A→B→A`. -/
def cyc2Comps : List ComponentInfo :=
  [mkComp "A" "A" ["B"], mkComp "B" "B" ["A"]]

/-- The three-cycle `A→B→C→A`. -/
def cyc3Comps : List ComponentInfo :=
  [mkComp "A" "A" ["B"], mkComp "B" "B" ["C"], mkComp "C" "C" ["A"]]

/-- A React Flow node as far as the layout and scouter code inspects it:
its id and its position. -/
structure FlowNode where
  id : String
  x : ℚ
  y : ℚ
  deriving DecidableEq, Repr

/-- A React Flow edge: id, source and target node ids. -/
structure FlowEdge where
  id : String
  source : String
  target : String
  deriving DecidableEq, Repr

/-- The `childrenMap` of `applyTreeLayout` (layoutAlgorithm.ts:25-85):
source id mapped to the list of its edge targets, in edge order. -/
def buildChildrenMap (edges : List FlowEdge) : JsMap (List String) :=
  edges.foldl
    (fun m e => mapSet m e.source ((mapGet m e.source).getD [] ++ [e.target])) []

/-- The BFS level loop of `applyTreeLayout`: dequeue an entry, set the
node's level (overwriting any earlier assignment), and enqueue every child
that has no level yet.  The fuel bounds the number of loop iterations; the
loop stops by itself when the queue empties, and the call site passes a fuel
that dominates the worst-case number of queue entries. -/
def bfsLoop (childrenMap : JsMap (List String)) :
    Nat → List (String × Nat) → JsMap Nat → JsMap Nat
  | 0, _, levels => levels
  | _ + 1, [], levels => levels
  | fuel + 1, (id, level) :: rest, levels =>
    let levels' := mapSet levels id level
    let children := (mapGet childrenMap id).getD []
    let fresh := children.filter (fun c => (mapGet levels' c).isNone)
    bfsLoop childrenMap fuel (rest ++ fresh.map (fun c => (c, level + 1))) levels'

/-- `indexOf` with JavaScript semantics: `-1` when absent. -/
def jsIndexOf (l : List String) (a : String) : Int :=
  match l.findIdx? (fun x => x = a) with
  | some i => i
  | none => -1

/-- The level map computed by `applyTreeLayout`: roots are the nodes with no
incoming edge, all enqueued at level 0. -/
def treeLevels (nodes : List FlowNode) (edges : List FlowEdge) : JsMap Nat :=
  let childrenMap := buildChildrenMap edges
  let hasIncoming := edges.map (·.target)
  let rootNodes := nodes.filter (fun n => !hasIncoming.contains n.id)
  let fuel := (edges.length + 2) ^ (nodes.length + 1) + nodes.length + 1
  bfsLoop childrenMap fuel (rootNodes.map (fun n => (n.id, 0))) []

/-- `applyTreeLayout`: compute levels, group ids by level in level-map
insertion order, and position every node at
`x = (indexInLevel - totalInLevel/2)*200 + 400`, `y = level*200 + 50`
(an unleveled node takes level 0 and JavaScript `indexOf` yields `-1`). -/
def applyTreeLayout (nodes : List FlowNode) (edges : List FlowEdge) : List FlowNode :=
  let levels := treeLevels nodes edges
  nodes.map (fun n =>
    let level := (mapGet levels n.id).getD 0
    let nodesInLevel := (levels.filter (fun p => p.2 = level)).map (·.1)
    let indexInLevel := jsIndexOf nodesInLevel n.id
    let totalInLevel := nodesInLevel.length
    { n with
      x := ((indexInLevel : ℚ) - (totalInLevel : ℚ) / 2) * 200 + 400,
      y := (level : ℚ) * 200 + 50 })

/-- Modelled from the spec (for comparison with the code): BFS level
assignment from all roots simultaneously where the first visit wins — a
dequeued node that already has a level is skipped, so a node's level is the
one carried by its earliest queue entry. -/
def specBfsLoop (childrenMap : JsMap (List String)) :
    Nat → List (String × Nat) → JsMap Nat → JsMap Nat
  | 0, _, levels => levels
  | _ + 1, [], levels => levels
  | fuel + 1, (id, level) :: rest, levels =>
    if (mapGet levels id).isSome then specBfsLoop childrenMap fuel rest levels
    else
      let levels' := mapSet levels id level
      let children := (mapGet childrenMap id).getD []
      let fresh := children.filter (fun c => (mapGet levels' c).isNone)
      specBfsLoop childrenMap fuel (rest ++ fresh.map (fun c => (c, level + 1))) levels'

/-- Modelled from the spec: the first-visit-wins level of a node. -/
def specFirstVisitLevel (nodes : List FlowNode) (edges : List FlowEdge)
    (id : String) : Option Nat :=
  let childrenMap := buildChildrenMap edges
  let hasIncoming := edges.map (·.target)
  let rootNodes := nodes.filter (fun n => !hasIncoming.contains n.id)
  let fuel := nodes.length + edges.length + 1
  mapGet (specBfsLoop childrenMap fuel (rootNodes.map (fun n => (n.id, 0))) []) id

/-- The result record of `ScouterModeService.extractRelatedNodes`. -/
structure RelatedNodes where
  centerNode : FlowNode
  dependencyNodes : List FlowNode
  dependentNodes : List FlowNode
  relatedEdges : List FlowEdge
  deriving DecidableEq, Repr

/-- `ExtractRelatedNodesOptions`: an optional `showAllDescendants` flag. -/
structure ExtractOptions where
  showAllDescendants : Option Bool
  deriving DecidableEq, Repr

/-- The two mutable id sets threaded through a scouter DFS direction: the
nodes collected for this direction and the shared related-edge ids. -/
structure ScouterSt where
  nodeIds : Finset String
  edgeIds : Finset String

/-- The recursive `visitDependencies`/`visitDependents` of
`ScouterModeService.extractAllDescendants`, generic in the direction:
`sel` is the endpoint that must equal the current node (`source` downward,
`target` upward) and `oth` the endpoint walked to.  Every scanned edge id is
recorded; a walked-to endpoint is added and recursed into unless already
collected or equal to the center.  The fuel bounds the recursion depth,
which grows only when a fresh node is added, so `edges.length + 1` at the
call site is never exhausted. -/
def scouterVisit (allEdges : List FlowEdge) (centerNodeId : String)
    (sel oth : FlowEdge → String) : Nat → String → ScouterSt → ScouterSt
  | 0, _, st => st
  | fuel + 1, nodeId, st =>
    (allEdges.filter (fun e => sel e = nodeId)).foldl
      (fun s e =>
        let s1 : ScouterSt := { s with edgeIds := insert e.id s.edgeIds }
        if oth e ∉ s1.nodeIds ∧ oth e ≠ centerNodeId then
          scouterVisit allEdges centerNodeId sel oth fuel (oth e)
            { s1 with nodeIds := insert (oth e) s1.nodeIds }
        else s1)
      st

/-- The `forEach` body of a scouter DFS, named for the proofs: record the
edge id, then descend into a fresh non-center endpoint. -/
def scouterStep (all : List FlowEdge) (center : String) (sel oth : FlowEdge → String)
    (fuel : Nat) : ScouterSt → FlowEdge → ScouterSt :=
  fun s e =>
    let s1 : ScouterSt := { s with edgeIds := insert e.id s.edgeIds }
    if oth e ∉ s1.nodeIds ∧ oth e ≠ center then
      scouterVisit all center sel oth fuel (oth e)
        { s1 with nodeIds := insert (oth e) s1.nodeIds }
    else s1

/-- `ScouterModeService.extractAllDescendants`: DFS downward from the
center over `source`-matching edges, DFS upward over `target`-matching
edges (sharing the related-edge id set), then filter the node and edge
lists by the collected ids.  The `allNodes.find(...)!` of the source is
embedded with a dummy fallback; callers only reach this after the center
was found. -/
def extractAllDescendants (centerNodeId : String) (allNodes : List FlowNode)
    (allEdges : List FlowEdge) : RelatedNodes :=
  let centerNode := (allNodes.find? (fun n => n.id = centerNodeId)).getD ⟨centerNodeId, 0, 0⟩
  let fwd := scouterVisit allEdges centerNodeId FlowEdge.source FlowEdge.target
    (allEdges.length + 1) centerNodeId ⟨∅, ∅⟩
  let bwd := scouterVisit allEdges centerNodeId FlowEdge.target FlowEdge.source
    (allEdges.length + 1) centerNodeId ⟨∅, fwd.edgeIds⟩
  { centerNode := centerNode,
    dependencyNodes := allNodes.filter (fun n => n.id ∈ fwd.nodeIds),
    dependentNodes := allNodes.filter (fun n => n.id ∈ bwd.nodeIds),
    relatedEdges := allEdges.filter (fun e => e.id ∈ bwd.edgeIds) }

/-- `ScouterModeService.extractDirectRelations`: one hop in each direction. -/
def extractDirectRelations (centerNodeId : String) (allNodes : List FlowNode)
    (allEdges : List FlowEdge) : RelatedNodes :=
  let centerNode := (allNodes.find? (fun n => n.id = centerNodeId)).getD ⟨centerNodeId, 0, 0⟩
  let dependencyEdges := allEdges.filter (fun e => e.source = centerNodeId)
  let dependencyNodeIds := dependencyEdges.map (·.target)
  let dependencyNodes := allNodes.filter (fun n => dependencyNodeIds.contains n.id)
  let dependentEdges := allEdges.filter (fun e => e.target = centerNodeId)
  let dependentNodeIds := dependentEdges.map (·.source)
  let dependentNodes := allNodes.filter (fun n => dependentNodeIds.contains n.id)
  { centerNode := centerNode,
    dependencyNodes := dependencyNodes,
    dependentNodes := dependentNodes,
    relatedEdges := dependencyEdges ++ dependentEdges }

/-- `ScouterModeService.extractRelatedNodes`: default `showAllDescendants`
to `true`, fail when the center id is not among the nodes (the `throw` is
embedded as `Except.error`), otherwise dispatch on the flag. -/
def extractRelatedNodes (centerNodeId : String) (allNodes : List FlowNode)
    (allEdges : List FlowEdge) (options : ExtractOptions) :
    Except String RelatedNodes :=
  let showAllDescendants := options.showAllDescendants.getD true
  match allNodes.find? (fun n => n.id = centerNodeId) with
  | none => .error ("Node with id " ++ centerNodeId ++ " not found")
  | some _ =>
    .ok (if showAllDescendants then extractAllDescendants centerNodeId allNodes allEdges
      else extractDirectRelations centerNodeId allNodes allEdges)

/-- One forward dependency edge step between node ids. -/
def EdgeStep (edges : List FlowEdge) (a b : String) : Prop :=
  ∃ e ∈ edges, e.source = a ∧ e.target = b

/-- One step of a scouter DFS direction: an edge whose `sel` endpoint is `a`
and whose `oth` endpoint is `b`. -/
def ScStep (all : List FlowEdge) (sel oth : FlowEdge → String) (a b : String) : Prop :=
  ∃ e ∈ all, sel e = a ∧ oth e = b

/-- Reachability along a scouter DFS direction. -/
def ScReach (all : List FlowEdge) (sel oth : FlowEdge → String) : String → String → Prop :=
  Relation.ReflTransGen (ScStep all sel oth)

/-- A node is fully processed in a scouter DFS state: every edge leaving it
(in the direction's sense) has its id recorded, and the walked-to endpoint
is collected unless it is the center. -/
def ScProcessed (all : List FlowEdge) (center : String) (sel oth : FlowEdge → String)
    (u : String) (st : ScouterSt) : Prop :=
  ∀ e ∈ all, sel e = u → e.id ∈ st.edgeIds ∧ (oth e ∈ st.nodeIds ∨ oth e = center)

/-- The `(path, extension, content)` record fed to the parser. -/
structure FileInfo where
  path : String
  extension : String
  content : String
  deriving DecidableEq, Repr

/-- One property of a props interface. -/
structure PropProperty where
  name : String
  kind : String
  required : Bool
  deriving DecidableEq, Repr

/-- `PropsInfo`: the parsed `${Name}Props` shape. -/
structure PropsInfo where
  name : String
  properties : List PropProperty
  deriving DecidableEq, Repr

/-- The per-declaration record produced by `extractComponents`. -/
structure ComponentData (Body : Type) where
  name : String
  kind : String
  body : Body

/-- `ComponentParser.countExternalLibraries`: the number of distinct import
sources that are not relative/absolute paths and not `react`/`react-dom`. -/
def countExternalLibraries (imports : List ImportInfo) : Nat :=
  (imports.foldl
      (fun acc imp =>
        if ¬ imp.source.startsWith "." ∧ ¬ imp.source.startsWith "/" ∧
            imp.source ≠ "react" ∧ imp.source ≠ "react-dom" then
          if imp.source ∈ acc then acc else acc ++ [imp.source]
        else acc)
      []).length

/-- `ComponentParser.extractDependencies`: the specifiers of all
component-like imports, minus the component's own name. -/
def extractDependencies (componentName : String) (imports : List ImportInfo) :
    List String :=
  (imports.foldl (fun acc imp => if imp.isReactComponent then acc ++ imp.specifiers else acc)
      []).filter (fun dep => dep ≠ componentName)

/-- The collaborator functions `parseFile` calls into.  `parseCode` wraps the
external `@babel/parser` `parse`, which throws on malformed source (embedded
as `Except.error`); the extractors walk the babel AST via the external
`traverse` and are kept abstract — the graph engine's claims do not depend
on their values, only on how `parseFile` combines them. -/
structure ParserSteps (AST Body : Type) where
  parseCode : String → String → Except String AST
  extractImports : AST → List ImportInfo
  extractComponents : AST → List (ComponentData Body)
  extractHooks : Body → List HookUsage
  extractCustomHookCalls : Body → List String
  extractPropsInfo : AST → String → String → Option PropsInfo
  calculateLinesOfCode : Body → Nat

/-- `ComponentParser.parseFile` (componentParser.ts:230-274): parse the
file inside a `try`; on a parse error the `catch` logs and the components
gathered so far (none, since parsing is the first step) are returned; on
success one `ComponentInfo` per extracted declaration is pushed, whose
dependency list is the de-duplicated concatenation of component-like import
specifiers and custom hook calls and whose complexity comes from
`calculateComplexity`. -/
def parseFile {AST Body : Type} (P : ParserSteps AST Body)
    (fileInfo : FileInfo) : List ComponentInfo :=
  match P.parseCode fileInfo.content fileInfo.extension with
  | .error _ => []
  | .ok ast =>
    let imports := P.extractImports ast
    (P.extractComponents ast).foldl
      (fun components data =>
        let hooks := P.extractHooks data.body
        let customHookCalls := P.extractCustomHookCalls data.body
        let propsInfo := P.extractPropsInfo ast data.name fileInfo.extension
        let linesOfCode := P.calculateLinesOfCode data.body
        let externalLibraryCount := countExternalLibraries imports
        let importDeps := extractDependencies data.name imports
        let allDependencies := (importDeps ++ customHookCalls).eraseDups
        components ++
          [{ id := fileInfo.path ++ ":" ++ data.name,
             name := data.name,
             filePath := fileInfo.path,
             kind := data.kind,
             dependencies := allDependencies,
             imports := imports,
             linesOfCode := linesOfCode,
             hooks := hooks,
             propsCount := (propsInfo.map (·.properties.length)).getD 0,
             complexity := calculateComplexity
               { linesOfCode := linesOfCode,
                 dependencyCount := allDependencies.length,
                 hooksCount := hooks.foldl (fun sum h => sum + h.count) 0,
                 propsCount := (propsInfo.map (·.properties.length)).getD 0,
                 externalLibraryCount := externalLibraryCount } }])
      []

/-- An analysis run over many files: each file's units are appended, the
way the UI driver folds `parseFile` over the scanned file list. -/
def analyzeFiles {AST Body : Type} (P : ParserSteps AST Body)
    (files : List FileInfo) : List ComponentInfo :=
  files.foldl (fun acc f => acc ++ parseFile P f) []

/-- Flow nodes for the linear chain `A→B→C`. -/
def chainFlowNodes : List FlowNode := [⟨"A", 0, 0⟩, ⟨"B", 0, 0⟩, ⟨"C", 0, 0⟩]

/-- Flow edges for the linear chain `A→B→C`. -/
def chainFlowEdges : List FlowEdge := [⟨"A-B", "A", "B"⟩, ⟨"B-C", "B", "C"⟩]

/-- Flow nodes for the diamond `A→B, A→C, B→C`. -/
def diamondFlowNodes : List FlowNode := [⟨"A", 0, 0⟩, ⟨"B", 0, 0⟩, ⟨"C", 0, 0⟩]

/-- Flow edges for the diamond `A→B, A→C, B→C`. -/
def diamondFlowEdges : List FlowEdge :=
  [⟨"A-B", "A", "B"⟩, ⟨"A-C", "A", "C"⟩, ⟨"B-C", "B", "C"⟩]

/-- Flow nodes for the scouter chain `D→C→B→A`. -/
def scouterChainNodes : List FlowNode :=
  [⟨"A", 0, 0⟩, ⟨"B", 0, 0⟩, ⟨"C", 0, 0⟩, ⟨"D", 0, 0⟩]

/-- Flow edges for the scouter chain `D→C→B→A` (D depends on C, …). -/
def scouterChainEdges : List FlowEdge :=
  [⟨"D-C", "D", "C"⟩, ⟨"C-B", "C", "B"⟩, ⟨"B-A", "B", "A"⟩]

/-- A trivial concrete instantiation of the parser collaborators: parsing
always succeeds and yields one function declaration named `Foo`. -/
def trivialSteps : ParserSteps Unit Unit :=
  { parseCode := fun _ _ => .ok (),
    extractImports := fun _ => [],
    extractComponents := fun _ => [⟨"Foo", "function", ()⟩],
    extractHooks := fun _ => [],
    extractCustomHookCalls := fun _ => [],
    extractPropsInfo := fun _ _ _ => none,
    calculateLinesOfCode := fun _ => 3 }

/-- Parser collaborators whose `parseCode` always reports a syntax error. -/
def failingSteps : ParserSteps Unit Unit :=
  { trivialSteps with parseCode := fun _ _ => .error "SyntaxError" }

/-- A sample input file record. -/
def sampleFile : FileInfo :=
  { path := "src/Foo.tsx", extension := ".tsx", content := "export const Foo = 1" }

/-- The strength recorded for the ordered pair `(f,t)`: the strength of the
first matching edge, 0 when absent (mirrors the `edges.find` lookup). -/
def strengthIn (edges : List DependencyEdge) (f t : String) : Nat :=
  ((edges.find? (fun e => e.fromId = f ∧ e.toId = t)).map (·.strength)).getD 0

/-- The number of occurrences in a dependency-name list that resolve to the
id `t` through the name map. -/
def resolvedCount (nameToId : JsMap String) (deps : List String) (t : String) : Nat :=
  (deps.filter (fun n => mapGet nameToId n = some t)).length

/-- The contribution of one component to the strength of the ordered pair
`(f,t)`: its resolved occurrences of `t`, provided the component is the
`from` unit and `t` passes the truthiness and self-reference guards. -/
def edgeContribution (nameToId : JsMap String) (c : ComponentInfo) (f t : String) : Nat :=
  if c.id = f ∧ t ≠ "" ∧ t ≠ c.id then resolvedCount nameToId c.dependencies t else 0

/-- Components where `B` references `A` twice (for the strength witness). -/
def dupComps : List ComponentInfo :=
  [mkComp "A" "A" [], mkComp "B" "B" ["A", "A"]]

/-- Computable test for one dependency step (used to evaluate `Adj` on
concrete graphs). -/
def adjB (g : DependencyGraph) (a b : String) : Bool :=
  match mapGet g.nodes a with
  | none => false
  | some n => n.dependencies.contains b

/-! All definitions are above; the theorems follow. -/

lemma round_mono_of_le {x y : ℚ} (h : x ≤ y) : round x ≤ round y := by
  rw [round_eq, round_eq]
  exact Int.floor_le_floor (by linarith)

lemma normScore_nonneg (value cap : Nat) : (0 : ℚ) ≤ min 100 ((value : ℚ) / cap * 100) := by
  refine le_min (by norm_num) ?_
  positivity

lemma normScore_le (value cap : Nat) : min 100 ((value : ℚ) / cap * 100) ≤ 100 :=
  min_le_left _ _

lemma calculateComplexity_eq_round_raw (m : ComplexityMetrics) :
    calculateComplexity m = round (min 100 (rawComplexity m)) := rfl

lemma rawComplexity_le (m : ComplexityMetrics) : rawComplexity m ≤ 89 := by
  have h1 := normScore_le m.linesOfCode 200
  have h2 := normScore_le m.dependencyCount 10
  have h3 := normScore_le m.hooksCount 10
  have h4 := normScore_le m.propsCount 15
  have h5 := normScore_le m.externalLibraryCount 5
  unfold rawComplexity
  push_cast at *
  nlinarith

lemma rawComplexity_ge (m : ComplexityMetrics) : 4 ≤ rawComplexity m := by
  have h1 := normScore_nonneg m.linesOfCode 200
  have h2 := normScore_nonneg m.dependencyCount 10
  have h3 := normScore_nonneg m.hooksCount 10
  have h4 := normScore_nonneg m.propsCount 15
  have h5 := normScore_nonneg m.externalLibraryCount 5
  unfold rawComplexity
  nlinarith

lemma min_raw_eq (m : ComplexityMetrics) : min 100 (rawComplexity m) = rawComplexity m :=
  min_eq_right (le_trans (rawComplexity_le m) (by norm_num))

lemma calculateComplexity_bounds (m : ComplexityMetrics) :
    4 ≤ calculateComplexity m ∧ calculateComplexity m ≤ 89 := by
  rw [calculateComplexity_eq_round_raw, min_raw_eq]
  constructor
  · have : round (4 : ℚ) ≤ round (rawComplexity m) := round_mono_of_le (rawComplexity_ge m)
    simpa using this
  · have : round (rawComplexity m) ≤ round (89 : ℚ) := round_mono_of_le (rawComplexity_le m)
    simpa using this

/-- C3: the per-unit complexity score equals the spec's formula (normalize
each of the five inputs to `[0,100]` by `min(100, value/cap*100)` with caps
200/10/10/15/5, combine with weights 0.25/0.20/0.20/0.15/0.05 plus the fixed
`0.20·20` base term, round to the nearest integer, clamp to 100), and for
every input the result is an integer in `[0,100]`. -/
theorem calculateComplexity_matches_spec (m : ComplexityMetrics) :
    calculateComplexity m = specComplexityScore m ∧
      0 ≤ calculateComplexity m ∧ calculateComplexity m ≤ 100 := by
  obtain ⟨hlo, hhi⟩ := calculateComplexity_bounds m
  refine ⟨?_, by omega, by omega⟩
  have hspec : specComplexityScore m = min 100 (round (rawComplexity m)) := by
    unfold specComplexityScore rawComplexity
    ring_nf
  rw [hspec, calculateComplexity_eq_round_raw, min_raw_eq]
  have : round (rawComplexity m) ≤ 100 := by
    have := (calculateComplexity_bounds m).2
    rw [calculateComplexity_eq_round_raw, min_raw_eq] at this
    omega
  omega


lemma mapGet_set_self {α : Type} (m : JsMap α) (k : String) (v : α) :
    mapGet (mapSet m k v) k = some v := by
  induction m with
  | nil => simp [mapSet, mapGet]
  | cons p rest ih =>
    by_cases h : p.1 = k
    · simp [mapSet, mapGet, h]
    · simp [mapSet, mapGet, h, ih]

lemma mapGet_set_ne {α : Type} (m : JsMap α) (k k' : String) (v : α)
    (h : k' ≠ k) : mapGet (mapSet m k v) k' = mapGet m k' := by
  induction m with
  | nil => simp [mapSet, mapGet, h.symm]
  | cons p rest ih =>
    obtain ⟨a, b⟩ := p
    by_cases hp : a = k
    · subst hp
      simp [mapSet, mapGet, h.symm]
    · by_cases hp' : a = k'
      · subst hp'
        simp [mapSet, mapGet, hp]
      · simp [mapSet, mapGet, hp, hp', ih]

/-- C10: leaving the options unset defaults `showAllDescendants` to `true`:
`extractRelatedNodes` with no flag returns exactly what it returns with
`showAllDescendants = true`, i.e. the default behaviour is the full
transitive closure, not the one-hop neighborhood. -/
theorem extractRelatedNodes_default_is_show_all (centerNodeId : String)
    (allNodes : List FlowNode) (allEdges : List FlowEdge) :
    extractRelatedNodes centerNodeId allNodes allEdges ⟨none⟩ =
      extractRelatedNodes centerNodeId allNodes allEdges ⟨some true⟩ := rfl

/-- C5: `extractRelatedNodes` succeeds exactly when the center id occurs
among the supplied nodes; on success the returned `centerNode` carries that
id, and when no node has the id the error is raised to the caller. -/
theorem extractRelatedNodes_center_found (centerNodeId : String)
    (allNodes : List FlowNode) (allEdges : List FlowEdge)
    (options : ExtractOptions) :
    ((∃ n ∈ allNodes, n.id = centerNodeId) ↔
      ∃ R, extractRelatedNodes centerNodeId allNodes allEdges options = .ok R) ∧
    (∀ R, extractRelatedNodes centerNodeId allNodes allEdges options = .ok R →
      R.centerNode.id = centerNodeId) ∧
    ((∀ n ∈ allNodes, n.id ≠ centerNodeId) →
      extractRelatedNodes centerNodeId allNodes allEdges options =
        .error ("Node with id " ++ centerNodeId ++ " not found")) := by
  unfold extractRelatedNodes
  cases hfind : allNodes.find? (fun n => n.id = centerNodeId) with
  | none =>
    have hall := List.find?_eq_none.mp hfind
    refine ⟨⟨?_, ?_⟩, ?_, ?_⟩
    · rintro ⟨n, hn, hid⟩
      exact absurd (by simpa using hid) (by simpa using hall n hn)
    · rintro ⟨R, hR⟩
      simp at hR
    · intro R hR
      simp at hR
    · intro _
      simp
  | some c =>
    have hc : c.id = centerNodeId := by simpa using List.find?_some hfind
    have hmem : c ∈ allNodes := List.mem_of_find?_eq_some hfind
    refine ⟨⟨?_, ?_⟩, ?_, ?_⟩
    · intro _
      exact ⟨_, rfl⟩
    · intro _
      exact ⟨c, hmem, hc⟩
    · intro R hR
      simp only [Except.ok.injEq] at hR
      subst hR
      by_cases hshow : options.showAllDescendants.getD true
      · simp only [hshow, if_true]
        simp [extractAllDescendants, hfind, hc]
      · simp only [hshow, if_false]
        simp [extractDirectRelations, hfind, hc]
    · intro hnone
      exact absurd hc (hnone c hmem)

/-- C5 witness: on the concrete chain the extraction at `A` succeeds and
returns `A` as the center. -/
theorem extractRelatedNodes_center_found_witness :
    ∃ R, extractRelatedNodes "A" scouterChainNodes scouterChainEdges ⟨some true⟩ = .ok R ∧
      R.centerNode.id = "A" := by
  obtain ⟨h1, h2, _⟩ :=
    extractRelatedNodes_center_found "A" scouterChainNodes scouterChainEdges ⟨some true⟩
  obtain ⟨R, hR⟩ := h1.mp ⟨⟨"A", 0, 0⟩, by decide, rfl⟩
  exact ⟨R, hR, h2 R hR⟩

lemma foldl_append_start {α β : Type} (g : α → List β) :
    ∀ (l : List α) (init : List β),
      l.foldl (fun acc x => acc ++ g x) init =
        init ++ l.foldl (fun acc x => acc ++ g x) [] := by
  intro l
  induction l with
  | nil => intro init; simp
  | cons x rest ih =>
    intro init
    simp only [List.foldl_cons]
    rw [ih (init ++ g x), ih ([] ++ g x)]
    simp

lemma analyzeFiles_start {AST Body : Type} (P : ParserSteps AST Body)
    (files : List FileInfo) (init : List ComponentInfo) :
    files.foldl (fun acc f => acc ++ parseFile P f) init =
      init ++ analyzeFiles P files := by
  unfold analyzeFiles
  exact foldl_append_start _ files init

/-- C8: the parser never lets a failure escape: `parseFile` is a total
function into unit lists, and when the content is syntactically malformed
(`parseCode` reports an error) it returns the empty list for that file, so
an analysis run over many files is the same run with the bad file dropped. -/
theorem parseFile_absorbs_parse_errors {AST Body : Type}
    (P : ParserSteps AST Body) (fi : FileInfo) (err : String)
    (h : P.parseCode fi.content fi.extension = .error err) :
    parseFile P fi = [] ∧
    ∀ files1 files2 : List FileInfo,
      analyzeFiles P (files1 ++ fi :: files2) =
        analyzeFiles P (files1 ++ files2) := by
  have hempty : parseFile P fi = [] := by
    unfold parseFile
    rw [h]
  refine ⟨hempty, ?_⟩
  intro files1 files2
  unfold analyzeFiles
  rw [List.foldl_append, List.foldl_append, List.foldl_cons, hempty,
    List.append_nil]

/-- C8 witness: a concrete failing parse yields no units for the file. -/
theorem parseFile_absorbs_parse_errors_witness :
    parseFile failingSteps sampleFile = [] ∧
      analyzeFiles failingSteps ([sampleFile] ++ sampleFile :: []) =
        analyzeFiles failingSteps ([sampleFile] ++ []) := by
  obtain ⟨h1, h2⟩ :=
    parseFile_absorbs_parse_errors failingSteps sampleFile "SyntaxError" rfl
  exact ⟨h1, h2 [sampleFile] []⟩

lemma foldl_forall_push {α β : Type} (step : List β → α → List β) (Q : β → Prop)
    (hstep : ∀ acc a b, b ∈ step acc a → b ∈ acc ∨ Q b) :
    ∀ (l : List α) (acc : List β) (b : β),
      (∀ x ∈ acc, Q x) → b ∈ l.foldl step acc → Q b := by
  intro l
  induction l with
  | nil =>
    intro acc b hacc hb
    exact hacc b hb
  | cons a rest ih =>
    intro acc b hacc hb
    refine ih (step acc a) b ?_ hb
    intro x hx
    rcases hstep acc a x hx with h | h
    · exact hacc x h
    · exact h

/-- C9: the complexity score has a floor above zero: `calculateComplexity`
returns at least 4 (the rounded fixed base term `20 × 0.20`) on every input,
it returns exactly 4 when all five metric inputs are zero, and consequently
every unit produced by `parseFile` has complexity at least 4 — never 0. -/
theorem calculateComplexity_floor :
    (∀ m : ComplexityMetrics, 4 ≤ calculateComplexity m) ∧
    calculateComplexity ⟨0, 0, 0, 0, 0⟩ = 4 ∧
    (∀ {AST Body : Type} (P : ParserSteps AST Body) (fi : FileInfo),
      ∀ c ∈ parseFile P fi, 4 ≤ c.complexity) := by
  have hfloor : ∀ m : ComplexityMetrics, 4 ≤ calculateComplexity m :=
    fun m => (calculateComplexity_bounds m).1
  have hzero : calculateComplexity ⟨0, 0, 0, 0, 0⟩ = 4 := by
    rw [calculateComplexity_eq_round_raw, min_raw_eq]
    have hraw : rawComplexity ⟨0, 0, 0, 0, 0⟩ = 4 := by norm_num [rawComplexity]
    rw [hraw]
    norm_num [round_eq]
  refine ⟨hfloor, hzero, ?_⟩
  intro AST Body P fi c hc
  unfold parseFile at hc
  cases hpc : P.parseCode fi.content fi.extension with
  | error e => rw [hpc] at hc; simp at hc
  | ok ast =>
    rw [hpc] at hc
    refine foldl_forall_push _ (fun x => 4 ≤ x.complexity) ?_ _ _ c (by simp) hc
    intro acc a b hb
    simp only [List.mem_append, List.mem_singleton] at hb
    rcases hb with h | h
    · exact Or.inl h
    · subst h
      exact Or.inr (hfloor _)

/-- C9 witness: the sample run yields the unit `Foo` with complexity 4,
which the floor theorem bounds from below. -/
theorem calculateComplexity_floor_witness :
    4 ≤ ((⟨"src/Foo.tsx:Foo", "Foo", "src/Foo.tsx", "function", [], [], 3, [], 0, 4⟩ :
        ComponentInfo)).complexity ∧
    (⟨"src/Foo.tsx:Foo", "Foo", "src/Foo.tsx", "function", [], [], 3, [], 0, 4⟩ :
        ComponentInfo) ∈ parseFile trivialSteps sampleFile := by
  have hcc : calculateComplexity ⟨3, 0, 0, 0, 0⟩ = 4 := by
    rw [calculateComplexity_eq_round_raw, min_raw_eq]
    have hraw : rawComplexity ⟨3, 0, 0, 0, 0⟩ = 4.375 := by norm_num [rawComplexity]
    rw [hraw]
    norm_num [round_eq]
  have hpf : parseFile trivialSteps sampleFile =
      [⟨"src/Foo.tsx:Foo", "Foo", "src/Foo.tsx", "function", [], [], 3, [], 0,
        calculateComplexity ⟨3, 0, 0, 0, 0⟩⟩] := rfl
  have hmem : (⟨"src/Foo.tsx:Foo", "Foo", "src/Foo.tsx", "function", [], [], 3, [], 0, 4⟩ :
      ComponentInfo) ∈ parseFile trivialSteps sampleFile := by
    rw [hpf, hcc]
    simp
  exact ⟨calculateComplexity_floor.2.2 trivialSteps sampleFile _ hmem, hmem⟩

/-- C2 fails on the code: on the chain `A→B→C` (in that input order) the
builder assigns `B` depth 2, not `max(0, depth(C)+1)` and not the 1 the
claim states; and the root `A` (no dependents) has depth 2, not 0. -/
theorem calculateDepths_counterexample :
    depthOf (buildGraph chainComps) "C" = 2 ∧
    depthOf (buildGraph chainComps) "B" = 2 ∧
    ¬ depthOf (buildGraph chainComps) "B" =
        max 0 (depthOf (buildGraph chainComps) "C" + 1) ∧
    ¬ depthOf (buildGraph chainComps) "B" = 1 ∧
    (mapGet (buildGraph chainComps).nodes "A").map (·.dependents) = some [] ∧
    ¬ depthOf (buildGraph chainComps) "A" = 0 := by decide

/-- C2 amended: on the chain `A→B→C` processed in input order `A,B,C`, the
recursive `visit` assigns every node the absolute maximum call depth reached
below it (entry depth plus longest remaining chain), so all of `A`, `B`, `C`
receive depth 2; the depths satisfy neither the local recurrence
`depth(n) = max(0, max over deps of depth(dep)+1)` nor `depth(root) = 0`. -/
theorem calculateDepths_chain_actual :
    depthOf (buildGraph chainComps) "A" = 2 ∧
    depthOf (buildGraph chainComps) "B" = 2 ∧
    depthOf (buildGraph chainComps) "C" = 2 := by decide

lemma addEdgeUpsert_strengthIn_self (f t : String) :
    ∀ E : List DependencyEdge,
      strengthIn (addEdgeUpsert E f t) f t = strengthIn E f t + 1 := by
  intro E
  induction E with
  | nil => simp [addEdgeUpsert, strengthIn]
  | cons e rest ih =>
    by_cases h : e.fromId = f ∧ e.toId = t
    · simp [addEdgeUpsert, strengthIn, h]
    · simp only [addEdgeUpsert, h, if_false]
      simp only [strengthIn] at ih ⊢
      rw [List.find?_cons_of_neg _ (by simpa using h), List.find?_cons_of_neg _ (by simpa using h)]
      exact ih

lemma addEdgeUpsert_strengthIn_other (f t f' t' : String)
    (hne : ¬(f' = f ∧ t' = t)) :
    ∀ E : List DependencyEdge,
      strengthIn (addEdgeUpsert E f t) f' t' = strengthIn E f' t' := by
  intro E
  induction E with
  | nil =>
    simp only [addEdgeUpsert, strengthIn]
    rw [List.find?_cons_of_neg _ (by simpa using fun h1 h2 => hne ⟨h1.symm, h2.symm⟩)]
  | cons e rest ih =>
    by_cases h : e.fromId = f ∧ e.toId = t
    · obtain ⟨h1, h2⟩ := h
      subst h1
      subst h2
      have hnotp : ¬(e.fromId = f' ∧ e.toId = t') := fun hc => hne ⟨hc.1.symm, hc.2.symm⟩
      simp only [addEdgeUpsert]
      rw [if_pos (by simp)]
      simp only [strengthIn]
      rw [List.find?_cons_of_neg _ (by simp only [decide_eq_true_eq]; exact hnotp),
        List.find?_cons_of_neg _ (by simp only [decide_eq_true_eq]; exact hnotp)]
    · simp only [addEdgeUpsert]
      rw [if_neg h]
      by_cases hp : e.fromId = f' ∧ e.toId = t'
      · simp only [strengthIn]
        rw [List.find?_cons_of_pos _ (by simp only [decide_eq_true_eq]; exact hp),
          List.find?_cons_of_pos _ (by simp only [decide_eq_true_eq]; exact hp)]
      · simp only [strengthIn] at ih ⊢
        rw [List.find?_cons_of_neg _ (by simp only [decide_eq_true_eq]; exact hp),
          List.find?_cons_of_neg _ (by simp only [decide_eq_true_eq]; exact hp)]
        exact ih

lemma mem_addEdgeUpsert (f t : String) :
    ∀ (E : List DependencyEdge) (x : DependencyEdge),
      x ∈ addEdgeUpsert E f t → x ∈ E ∨ (x.fromId = f ∧ x.toId = t) := by
  intro E
  induction E with
  | nil =>
    intro x hx
    simp only [addEdgeUpsert, List.mem_singleton] at hx
    subst hx
    exact Or.inr ⟨rfl, rfl⟩
  | cons e rest ih =>
    intro x hx
    by_cases h : e.fromId = f ∧ e.toId = t
    · obtain ⟨h1, h2⟩ := h
      subst h1
      subst h2
      simp only [addEdgeUpsert] at hx
      rw [if_pos (by simp)] at hx
      rcases List.mem_cons.mp hx with hx1 | hx1
      · subst hx1
        exact Or.inr ⟨rfl, rfl⟩
      · exact Or.inl (List.mem_cons_of_mem _ hx1)
    · simp only [addEdgeUpsert] at hx
      rw [if_neg h] at hx
      rcases List.mem_cons.mp hx with hx1 | hx1
      · subst hx1
        exact Or.inl (List.mem_cons_self _ _)
      · rcases ih x hx1 with h2 | h2
        · exact Or.inl (List.mem_cons_of_mem _ h2)
        · exact Or.inr h2

lemma addEdgeUpsert_pairs (f t : String) :
    ∀ E : List DependencyEdge,
      (addEdgeUpsert E f t).map (fun e => (e.fromId, e.toId)) =
        (if (f, t) ∈ E.map (fun e => (e.fromId, e.toId))
          then E.map (fun e => (e.fromId, e.toId))
          else E.map (fun e => (e.fromId, e.toId)) ++ [(f, t)]) := by
  intro E
  induction E with
  | nil => simp [addEdgeUpsert]
  | cons e rest ih =>
    by_cases h : e.fromId = f ∧ e.toId = t
    · have hft : (f, t) = (e.fromId, e.toId) := by rw [h.1, h.2]
      simp [addEdgeUpsert, h, hft]
    · have hpair : ¬ ((f, t) = (e.fromId, e.toId)) := by
        intro hc
        exact h ⟨(congrArg Prod.fst hc).symm, (congrArg Prod.snd hc).symm⟩
      simp only [addEdgeUpsert, h, if_false, List.map_cons, List.mem_cons, hpair,
        false_or, ih]
      by_cases hmem : (f, t) ∈ rest.map (fun e => (e.fromId, e.toId))
      · simp [hmem]
      · simp [hmem]

lemma addEdgeUpsert_pairs_nodup (f t : String) (E : List DependencyEdge)
    (h : (E.map (fun e => (e.fromId, e.toId))).Nodup) :
    ((addEdgeUpsert E f t).map (fun e => (e.fromId, e.toId))).Nodup := by
  rw [addEdgeUpsert_pairs]
  by_cases hmem : (f, t) ∈ E.map (fun e => (e.fromId, e.toId))
  · simpa [hmem] using h
  · simp only [hmem, if_false]
    simpa [List.nodup_append, hmem] using h

lemma find?_eq_some_of_pairs_nodup :
    ∀ (E : List DependencyEdge), (E.map (fun e => (e.fromId, e.toId))).Nodup →
      ∀ e ∈ E, E.find? (fun x => x.fromId = e.fromId ∧ x.toId = e.toId) = some e := by
  intro E
  induction E with
  | nil =>
    intro _ e he
    simp at he
  | cons x rest ih =>
    intro hnd e he
    rcases List.mem_cons.mp he with he1 | he1
    · subst he1
      rw [List.find?_cons_of_pos _ (by simp)]
    · by_cases hx : x.fromId = e.fromId ∧ x.toId = e.toId
      · exfalso
        have hmm : (x.fromId, x.toId) ∈ rest.map (fun e => (e.fromId, e.toId)) := by
          rw [hx.1, hx.2]
          exact List.mem_map_of_mem _ he1
        simp only [List.map_cons, List.nodup_cons] at hnd
        exact hnd.1 hmm
      · rw [List.find?_cons_of_neg _ (by simpa using hx)]
        exact ih (by simp only [List.map_cons, List.nodup_cons] at hnd; exact hnd.2) e he1

lemma processDep_fold_strength (nameToId : JsMap String) (cid : String) :
    ∀ (deps : List String) (st : JsMap DependencyNode × List DependencyEdge)
      (f t : String),
      strengthIn (deps.foldl (processDep nameToId cid) st).2 f t =
        strengthIn st.2 f t +
          (if cid = f ∧ t ≠ "" ∧ t ≠ cid then resolvedCount nameToId deps t else 0) := by
  intro deps
  induction deps with
  | nil =>
    intro st f t
    simp [resolvedCount]
  | cons n rest ih =>
    intro st f t
    rw [List.foldl_cons]
    have hcount : resolvedCount nameToId (n :: rest) t =
        (if mapGet nameToId n = some t then 1 else 0) + resolvedCount nameToId rest t := by
      simp only [resolvedCount, List.filter_cons]
      by_cases hn : mapGet nameToId n = some t
      · simp only [hn, if_true, if_pos, List.length_cons]
        simp [hn]
        omega
      · simp [hn]
    cases hres : mapGet nameToId n with
    | none =>
      have hstep : processDep nameToId cid st n = st := by
        simp [processDep, hres]
      rw [hstep, ih st f t, hcount]
      have hnt : ¬ mapGet nameToId n = some t := by rw [hres]; simp
      simp [hnt]
    | some depId =>
      by_cases hg : depId ≠ "" ∧ depId ≠ cid
      · have hstep : (processDep nameToId cid st n).2 = addEdgeUpsert st.2 cid depId := by
          simp [processDep, hres, hg]
        rw [ih (processDep nameToId cid st n) f t, hstep, hcount]
        by_cases hft : f = cid ∧ t = depId
        · obtain ⟨hf, ht⟩ := hft
          rw [hf, ht]
          rw [addEdgeUpsert_strengthIn_self]
          rw [if_pos ⟨rfl, hg.1, hg.2⟩, if_pos ⟨rfl, hg.1, hg.2⟩, if_pos hres]
          omega
        · rw [addEdgeUpsert_strengthIn_other _ _ _ _ hft]
          by_cases hC : cid = f ∧ t ≠ "" ∧ t ≠ cid
          · have htd : ¬ t = depId := by
              intro htd
              exact hft ⟨hC.1.symm, htd⟩
            have hnt : ¬ mapGet nameToId n = some t := by
              rw [hres]
              simp only [Option.some.injEq]
              exact fun hdt => htd hdt.symm
            simp [hC, hnt]
          · simp [hC]
      · have hstep : processDep nameToId cid st n = st := by
          simp only [processDep, hres]
          rw [if_neg hg]
        rw [hstep, ih st f t, hcount]
        by_cases hC : cid = f ∧ t ≠ "" ∧ t ≠ cid
        · have hnt : ¬ mapGet nameToId n = some t := by
            rw [hres]
            simp only [Option.some.injEq]
            intro hdt
            rcases not_and_or.mp hg with hg1 | hg1
            · exact hC.2.1 (by rw [← hdt]; exact not_ne_iff.mp hg1)
            · exact hC.2.2 (by rw [← hdt]; exact not_ne_iff.mp hg1)
          simp [hC, hnt]
        · simp [hC]

lemma processDep_snd_cases (nameToId : JsMap String) (cid : String)
    (st : JsMap DependencyNode × List DependencyEdge) (n : String) :
    (processDep nameToId cid st n).2 = st.2 ∨
    ∃ depId, mapGet nameToId n = some depId ∧ depId ≠ "" ∧ depId ≠ cid ∧
      (processDep nameToId cid st n).2 = addEdgeUpsert st.2 cid depId := by
  cases hres : mapGet nameToId n with
  | none =>
    left
    simp [processDep, hres]
  | some depId =>
    by_cases hg : depId ≠ "" ∧ depId ≠ cid
    · right
      exact ⟨depId, rfl, hg.1, hg.2, by simp [processDep, hres, hg]⟩
    · left
      simp only [processDep, hres]
      rw [if_neg hg]

lemma processDep_fold_nodup (nameToId : JsMap String) (cid : String) :
    ∀ (deps : List String) (st : JsMap DependencyNode × List DependencyEdge),
      (st.2.map (fun e => (e.fromId, e.toId))).Nodup →
      ((deps.foldl (processDep nameToId cid) st).2.map (fun e => (e.fromId, e.toId))).Nodup := by
  intro deps
  induction deps with
  | nil => intro st h; exact h
  | cons n rest ih =>
    intro st h
    rw [List.foldl_cons]
    refine ih _ ?_
    rcases processDep_snd_cases nameToId cid st n with hc | ⟨depId, _, _, _, hc⟩
    · rw [hc]; exact h
    · rw [hc]; exact addEdgeUpsert_pairs_nodup _ _ _ h

lemma processDep_fold_mem (nameToId : JsMap String) (cid : String) :
    ∀ (deps : List String) (st : JsMap DependencyNode × List DependencyEdge)
      (x : DependencyEdge),
      x ∈ (deps.foldl (processDep nameToId cid) st).2 →
      x ∈ st.2 ∨ (x.fromId = cid ∧ x.toId ≠ "" ∧ x.toId ≠ cid) := by
  intro deps
  induction deps with
  | nil => intro st x hx; exact Or.inl hx
  | cons n rest ih =>
    intro st x hx
    rw [List.foldl_cons] at hx
    rcases ih _ x hx with h1 | h1
    · rcases processDep_snd_cases nameToId cid st n with hc | ⟨depId, _, hg1, hg2, hc⟩
      · rw [hc] at h1; exact Or.inl h1
      · rw [hc] at h1
        rcases mem_addEdgeUpsert _ _ _ _ h1 with h2 | h2
        · exact Or.inl h2
        · exact Or.inr ⟨h2.1, by rw [h2.2]; exact hg1, by rw [h2.2]; exact hg2⟩
    · exact Or.inr h1

lemma buildFold_strength (nameToId : JsMap String) :
    ∀ (comps : List ComponentInfo)
      (st : JsMap DependencyNode × List DependencyEdge) (f t : String),
      strengthIn ((comps.foldl (fun acc c =>
          c.dependencies.foldl (processDep nameToId c.id) acc) st)).2 f t =
        strengthIn st.2 f t +
          (comps.map (fun c => edgeContribution nameToId c f t)).sum := by
  intro comps
  induction comps with
  | nil => intro st f t; simp
  | cons c rest ih =>
    intro st f t
    rw [List.foldl_cons, ih _ f t, processDep_fold_strength nameToId c.id _ st f t]
    simp only [List.map_cons, List.sum_cons, edgeContribution]
    omega

lemma buildFold_nodup (nameToId : JsMap String) :
    ∀ (comps : List ComponentInfo)
      (st : JsMap DependencyNode × List DependencyEdge),
      (st.2.map (fun e => (e.fromId, e.toId))).Nodup →
      (((comps.foldl (fun acc c =>
          c.dependencies.foldl (processDep nameToId c.id) acc) st)).2.map
        (fun e => (e.fromId, e.toId))).Nodup := by
  intro comps
  induction comps with
  | nil => intro st h; exact h
  | cons c rest ih =>
    intro st h
    rw [List.foldl_cons]
    exact ih _ (processDep_fold_nodup nameToId c.id _ st h)

lemma buildFold_mem (nameToId : JsMap String) :
    ∀ (comps : List ComponentInfo)
      (st : JsMap DependencyNode × List DependencyEdge) (x : DependencyEdge),
      x ∈ ((comps.foldl (fun acc c =>
          c.dependencies.foldl (processDep nameToId c.id) acc) st)).2 →
      x ∈ st.2 ∨ (x.toId ≠ "" ∧ x.fromId ≠ x.toId) := by
  intro comps
  induction comps with
  | nil => intro st x hx; exact Or.inl hx
  | cons c rest ih =>
    intro st x hx
    rw [List.foldl_cons] at hx
    rcases ih _ x hx with h1 | h1
    · rcases processDep_fold_mem nameToId c.id _ st x h1 with h2 | h2
      · exact Or.inl h2
      · refine Or.inr ⟨h2.2.1, ?_⟩
        rw [h2.1]
        exact fun hh => h2.2.2 hh.symm
    · exact Or.inr h1

lemma contribution_sum_single (nameToId : JsMap String) :
    ∀ (comps : List ComponentInfo), (comps.map (fun c => c.id)).Nodup →
      ∀ c₀ ∈ comps, ∀ f t : String, c₀.id = f →
        (comps.map (fun c => edgeContribution nameToId c f t)).sum =
          edgeContribution nameToId c₀ f t := by
  intro comps
  induction comps with
  | nil =>
    intro _ c₀ hc₀
    simp at hc₀
  | cons c rest ih =>
    intro hnd c₀ hc₀ f t hf
    simp only [List.map_cons, List.nodup_cons] at hnd
    simp only [List.map_cons, List.sum_cons]
    rcases List.mem_cons.mp hc₀ with h | h
    · subst h
      have hzero : (rest.map (fun c => edgeContribution nameToId c f t)).sum = 0 := by
        apply List.sum_eq_zero
        intro x hx
        rcases List.mem_map.mp hx with ⟨c', hc', he⟩
        have hcne : ¬ c'.id = f := by
          intro he2
          exact hnd.1 (by rw [hf, ← he2]; exact List.mem_map_of_mem _ hc')
        rw [← he]
        simp [edgeContribution, hcne]
      rw [hzero]
      omega
    · have hcne : ¬ c.id = f := by
        intro he
        exact hnd.1 (by rw [← hf] at he; rw [he]; exact List.mem_map_of_mem _ h)
      rw [ih hnd.2 c₀ h f t hf]
      simp [edgeContribution, hcne]

/-- C4: the edge set built by `buildGraph` has at most one edge per ordered
`(from,to)` pair, never a self-edge, and (when component ids are distinct,
so that "the from-unit" is well defined) each edge's strength is exactly the
number of occurrences in the from-unit's dependency-name list that resolve
to the to-unit; self-references and unresolvable names are dropped. -/
theorem buildGraph_edge_invariants (components : List ComponentInfo)
    (hids : (components.map (fun c => c.id)).Nodup) :
    ((buildGraph components).edges.map (fun e => (e.fromId, e.toId))).Nodup ∧
    (∀ e ∈ (buildGraph components).edges, e.fromId ≠ e.toId) ∧
    (∀ e ∈ (buildGraph components).edges, ∀ c ∈ components, c.id = e.fromId →
      e.strength = resolvedCount (buildNameToId components) c.dependencies e.toId) := by
  have hedges : (buildGraph components).edges =
      (components.foldl (fun acc c => c.dependencies.foldl
        (processDep (buildNameToId components) c.id) acc)
        (buildNodesInit components, ([] : List DependencyEdge))).2 := rfl
  have hnodup := buildFold_nodup (buildNameToId components) components
    (buildNodesInit components, ([] : List DependencyEdge)) (by simp)
  refine ⟨hedges ▸ hnodup, ?_, ?_⟩
  · intro e he
    rcases buildFold_mem (buildNameToId components) components _ e (hedges ▸ he) with h | h
    · simp at h
    · exact h.2
  · intro e he c hc hcf
    have h4 : e.toId ≠ "" ∧ e.fromId ≠ e.toId := by
      rcases buildFold_mem (buildNameToId components) components _ e (hedges ▸ he) with h | h
      · simp at h
      · exact h
    have h1 : e.strength = strengthIn (buildGraph components).edges e.fromId e.toId := by
      unfold strengthIn
      rw [find?_eq_some_of_pairs_nodup _ (hedges ▸ hnodup) e he]
      rfl
    have h2 := buildFold_strength (buildNameToId components) components
      (buildNodesInit components, ([] : List DependencyEdge)) e.fromId e.toId
    have h3 := contribution_sum_single (buildNameToId components) components hids c hc
      e.fromId e.toId hcf
    have h5 : e.toId ≠ c.id := by
      rw [hcf]
      exact fun hh => h4.2 hh.symm
    rw [h1, hedges, h2, h3]
    have hz : strengthIn ((buildNodesInit components,
        ([] : List DependencyEdge))).2 e.fromId e.toId = 0 := by
      simp [strengthIn]
    rw [hz]
    simp only [edgeContribution]
    rw [if_pos ⟨hcf, h4.1, h5⟩]
    omega

/-- C4 witness: with `B` referencing `A` twice the graph has the single edge
`B→A` with strength 2, which equals the resolved-occurrence count. -/
theorem buildGraph_edge_invariants_witness :
    ((buildGraph dupComps).edges.map (fun e => (e.fromId, e.toId))).Nodup ∧
    (⟨"B", "A", 2⟩ : DependencyEdge).strength =
      resolvedCount (buildNameToId dupComps) (mkComp "B" "B" ["A", "A"]).dependencies "A" := by
  have h := buildGraph_edge_invariants dupComps (by decide)
  exact ⟨h.1, h.2.2 ⟨"B", "A", 2⟩ (by decide) (mkComp "B" "B" ["A", "A"]) (by decide) rfl⟩

lemma adjB_adj {g : DependencyGraph} {a b : String} (h : adjB g a b = true) :
    Adj g a b := by
  unfold adjB at h
  cases hm : mapGet g.nodes a with
  | none => rw [hm] at h; simp at h
  | some n =>
    rw [hm] at h
    exact ⟨n, hm, by simpa using h⟩

lemma stackChain_to_cycle (g : DependencyGraph) :
    ∀ (l : List String) (x v : String),
      StackChain g (x :: l) → v ∈ l → Relation.TransGen (Adj g) v x := by
  intro l
  induction l with
  | nil =>
    intro x v _ hv
    simp at hv
  | cons b t ih =>
    intro x v hchain hv
    have hadj : Adj g b x := hchain.1
    rcases List.mem_cons.mp hv with hv1 | hv1
    · subst hv1
      exact Relation.TransGen.single hadj
    · exact Relation.TransGen.tail (ih b v hchain.2 hv1) hadj

lemma cycDfs_sound (g : DependencyGraph) :
    ∀ (fuel : Nat) (nodeId : String) (st : CycSt),
      StackChain g (nodeId :: st.recursionStack) →
      (∀ v ∈ st.circularNodes, OnCycle g v) →
      ((cycDfs g fuel nodeId st).1.recursionStack = st.recursionStack ∧
        (∀ v ∈ (cycDfs g fuel nodeId st).1.circularNodes, OnCycle g v) ∧
        ((cycDfs g fuel nodeId st).2 = true → nodeId ∈ st.recursionStack)) := by
  intro fuel
  induction fuel with
  | zero =>
    intro nodeId st _ hsound
    exact ⟨rfl, hsound, by simp [cycDfs]⟩
  | succ fuel ih =>
    intro nodeId st hchain hsound
    by_cases h1 : nodeId ∈ st.recursionStack
    · rw [show cycDfs g (fuel + 1) nodeId st =
          ({ st with circularNodes := insert nodeId st.circularNodes }, true) by
        simp [cycDfs, h1]]
      refine ⟨rfl, ?_, fun _ => h1⟩
      intro v hv
      rcases Finset.mem_insert.mp hv with hv1 | hv1
      · rw [hv1]
        exact stackChain_to_cycle g st.recursionStack nodeId nodeId hchain h1
      · exact hsound v hv1
    · by_cases h2 : nodeId ∈ st.visited
      · rw [show cycDfs g (fuel + 1) nodeId st = (st, false) by
          simp [cycDfs, h1, h2]]
        exact ⟨rfl, hsound, by simp⟩
      · have hfold : ∀ (deps : List String) (s : CycSt),
            (∀ d ∈ deps, Adj g nodeId d) →
            s.recursionStack = nodeId :: st.recursionStack →
            (∀ v ∈ s.circularNodes, OnCycle g v) →
            ((deps.foldl (fun s d =>
                let r := cycDfs g fuel d s
                if r.2 then { r.1 with circularNodes := insert nodeId r.1.circularNodes }
                else r.1) s).recursionStack = s.recursionStack ∧
              (∀ v ∈ (deps.foldl (fun s d =>
                let r := cycDfs g fuel d s
                if r.2 then { r.1 with circularNodes := insert nodeId r.1.circularNodes }
                else r.1) s).circularNodes, OnCycle g v)) := by
          intro deps
          induction deps with
          | nil =>
            intro s _ _ hs
            exact ⟨rfl, hs⟩
          | cons d ds ihd =>
            intro s hadj hstk hs
            have hchain2 : StackChain g (d :: s.recursionStack) := by
              rw [hstk]
              exact ⟨hadj d (List.mem_cons_self _ _), hchain⟩
            obtain ⟨hr1, hr2, hr3⟩ := ih d s hchain2 hs
            rw [List.foldl_cons]
            set r := cycDfs g fuel d s with hr
            by_cases hb : r.2
            · have hd : d ∈ s.recursionStack := hr3 hb
              have hcyc : OnCycle g nodeId := by
                rw [hstk] at hd
                rcases List.mem_cons.mp hd with hd1 | hd1
                · exact Relation.TransGen.single
                    (hd1 ▸ hadj d (List.mem_cons_self _ _))
                · exact Relation.TransGen.head (hadj d (List.mem_cons_self _ _))
                    (stackChain_to_cycle g st.recursionStack nodeId d hchain hd1)
              have hstep : (if r.2 then
                  { r.1 with circularNodes := insert nodeId r.1.circularNodes }
                  else r.1) =
                  { r.1 with circularNodes := insert nodeId r.1.circularNodes } := by
                rw [if_pos hb]
              rw [hstep]
              obtain ⟨ha, hb⟩ := ihd
                { r.1 with circularNodes := insert nodeId r.1.circularNodes }
                (fun d' hd' => hadj d' (List.mem_cons_of_mem _ hd'))
                (by show r.1.recursionStack = nodeId :: st.recursionStack; rw [hr1, hstk])
                (by
                  intro v hv
                  rcases Finset.mem_insert.mp hv with hv1 | hv1
                  · rw [hv1]
                    exact hcyc
                  · exact hr2 v hv1)
              refine ⟨?_, hb⟩
              rw [ha]
              show r.1.recursionStack = s.recursionStack
              rw [hr1]
            · have hstep : (if r.2 then
                  { r.1 with circularNodes := insert nodeId r.1.circularNodes }
                  else r.1) = r.1 := by
                rw [if_neg hb]
              rw [hstep]
              obtain ⟨ha, hb⟩ := ihd r.1
                (fun d' hd' => hadj d' (List.mem_cons_of_mem _ hd'))
                (by rw [hr1, hstk]) hr2
              refine ⟨?_, hb⟩
              rw [ha, hr1]
        have hrun : cycDfs g (fuel + 1) nodeId st =
            (let st1 : CycSt :=
              { st with visited := insert nodeId st.visited,
                        recursionStack := nodeId :: st.recursionStack }
             let st2 :=
              match mapGet g.nodes nodeId with
              | none => st1
              | some node =>
                node.dependencies.foldl
                  (fun s d =>
                    let r := cycDfs g fuel d s
                    if r.2 then { r.1 with circularNodes := insert nodeId r.1.circularNodes }
                    else r.1)
                  st1
             ({ st2 with recursionStack := st2.recursionStack.erase nodeId }, false)) := by
          simp [cycDfs, h1, h2]
        rw [hrun]
        cases hm : mapGet g.nodes nodeId with
        | none =>
          simp only [hm]
          exact ⟨by simp [List.erase_cons_head], hsound, by simp⟩
        | some node =>
          simp only [hm]
          obtain ⟨hf1, hf2⟩ := hfold node.dependencies
            { st with visited := insert nodeId st.visited,
                      recursionStack := nodeId :: st.recursionStack }
            (fun d hd => ⟨node, hm, hd⟩) rfl hsound
          refine ⟨?_, hf2, by simp⟩
          show (_ : CycSt).recursionStack.erase nodeId = st.recursionStack
          rw [hf1]
          exact List.erase_cons_head _ _

lemma detectCircular_fold_sound (g : DependencyGraph) (fuel : Nat) :
    ∀ (keys : List String) (st : CycSt),
      st.recursionStack = [] →
      (∀ v ∈ st.circularNodes, OnCycle g v) →
      ((keys.foldl (fun st nodeId =>
          if nodeId ∈ st.visited then st else (cycDfs g fuel nodeId st).1) st).recursionStack = [] ∧
        ∀ v ∈ (keys.foldl (fun st nodeId =>
          if nodeId ∈ st.visited then st else (cycDfs g fuel nodeId st).1) st).circularNodes,
          OnCycle g v) := by
  intro keys
  induction keys with
  | nil =>
    intro st h1 h2
    exact ⟨h1, h2⟩
  | cons k rest ih =>
    intro st h1 h2
    rw [List.foldl_cons]
    by_cases hv : k ∈ st.visited
    · rw [if_pos hv]
      exact ih st h1 h2
    · rw [if_neg hv]
      have hchain : StackChain g (k :: st.recursionStack) := by
        rw [h1]
        trivial
      obtain ⟨hr1, hr2, _⟩ := cycDfs_sound g fuel k st hchain h2
      exact ih _ (hr1.trans h1) hr2

/-- C1 corrected: every node marked by `detectCircularDependencies` does lie
on a dependency cycle (the claim's only-if direction), and for the 2-cycle
`A→B→A` both nodes are marked while the acyclic chain `A→B→C` marks none;
but for the 3-cycle `A→B→C→A` only the re-entry node `A` and the
back-edge source `C` are marked — the mark does not propagate to every node
on the call chain. -/
theorem detectCircular_sound_and_examples :
    (∀ (components : List ComponentInfo) (v : String),
      v ∈ detectCircularDependencies (buildGraph components) →
      OnCycle (buildGraph components) v) ∧
    detectCircularDependencies (buildGraph cyc2Comps) = {"A", "B"} ∧
    detectCircularDependencies (buildGraph chainComps) = ∅ ∧
    detectCircularDependencies (buildGraph cyc3Comps) = {"A", "C"} := by
  refine ⟨?_, by decide, by decide, by decide⟩
  intro components v hv
  unfold detectCircularDependencies at hv
  exact (detectCircular_fold_sound (buildGraph components)
    (mapSize (buildGraph components).nodes + 1)
    (mapKeys (buildGraph components).nodes)
    { circularNodes := ∅, visited := ∅, recursionStack := [] } rfl
    (by simp)).2 v hv

/-- C1 witness: the marked node `A` of the 2-cycle indeed lies on a cycle. -/
theorem detectCircular_sound_witness :
    OnCycle (buildGraph cyc2Comps) "A" :=
  detectCircular_sound_and_examples.1 cyc2Comps "A" (by decide)

/-- C1 fails as stated: in the 3-cycle `A→B→C→A` the node `B` participates
in the cycle but is not marked circular, refuting both the "if and only if"
and the propagation along the whole call chain. -/
theorem detectCircular_counterexample :
    "B" ∉ detectCircularDependencies (buildGraph cyc3Comps) ∧
    OnCycle (buildGraph cyc3Comps) "B" := by
  refine ⟨by decide, ?_⟩
  have h1 : Adj (buildGraph cyc3Comps) "B" "C" := adjB_adj (by decide)
  have h2 : Adj (buildGraph cyc3Comps) "C" "A" := adjB_adj (by decide)
  have h3 : Adj (buildGraph cyc3Comps) "A" "B" := adjB_adj (by decide)
  exact Relation.TransGen.head h1 (Relation.TransGen.head h2 (Relation.TransGen.single h3))

lemma scProcessed_mono {all : List FlowEdge} {center : String}
    {sel oth : FlowEdge → String} {u : String} {st st' : ScouterSt}
    (h : ScProcessed all center sel oth u st)
    (hn : st.nodeIds ⊆ st'.nodeIds) (he : st.edgeIds ⊆ st'.edgeIds) :
    ScProcessed all center sel oth u st' := by
  intro e hea hsel
  obtain ⟨h1, h2⟩ := h e hea hsel
  exact ⟨he h1, h2.elim (fun x => Or.inl (hn x)) Or.inr⟩

lemma scouterVisit_unfold (all : List FlowEdge) (center : String)
    (sel oth : FlowEdge → String) (fuel : Nat) (u : String) (st : ScouterSt) :
    scouterVisit all center sel oth (fuel + 1) u st =
      (all.filter (fun e => sel e = u)).foldl
        (scouterStep all center sel oth fuel) st := rfl

lemma scouterStep_pos (all : List FlowEdge) (center : String)
    (sel oth : FlowEdge → String) (fuel : Nat) (s : ScouterSt) (e : FlowEdge)
    (h : oth e ∉ s.nodeIds ∧ oth e ≠ center) :
    scouterStep all center sel oth fuel s e =
      scouterVisit all center sel oth fuel (oth e)
        ⟨insert (oth e) s.nodeIds, insert e.id s.edgeIds⟩ := by
  simp only [scouterStep]
  rw [if_pos h]

lemma scouterStep_neg (all : List FlowEdge) (center : String)
    (sel oth : FlowEdge → String) (fuel : Nat) (s : ScouterSt) (e : FlowEdge)
    (h : ¬ (oth e ∉ s.nodeIds ∧ oth e ≠ center)) :
    scouterStep all center sel oth fuel s e =
      ⟨s.nodeIds, insert e.id s.edgeIds⟩ := by
  simp only [scouterStep]
  rw [if_neg h]

lemma scouterVisit_main (all : List FlowEdge) (center : String)
    (sel oth : FlowEdge → String) :
    ∀ (fuel : Nat) (u : String) (st : ScouterSt),
      (((all.map oth).toFinset \ st.nodeIds).card < fuel) →
      ScReach all sel oth center u →
      (∀ v ∈ st.nodeIds, v ≠ center ∧ ScReach all sel oth center v) →
      (st.nodeIds ⊆ (scouterVisit all center sel oth fuel u st).nodeIds ∧
        st.edgeIds ⊆ (scouterVisit all center sel oth fuel u st).edgeIds ∧
        (∀ v ∈ (scouterVisit all center sel oth fuel u st).nodeIds,
          v ≠ center ∧ ScReach all sel oth center v) ∧
        ScProcessed all center sel oth u (scouterVisit all center sel oth fuel u st) ∧
        (∀ v ∈ (scouterVisit all center sel oth fuel u st).nodeIds, v ∉ st.nodeIds →
          ScProcessed all center sel oth v (scouterVisit all center sel oth fuel u st))) := by
  intro fuel
  induction fuel with
  | zero =>
    intro u st hfuel
    exact absurd hfuel (by omega)
  | succ fuel ih =>
    intro u st hfuel hreach hsound
    have haux : ∀ (l : List FlowEdge), (∀ e ∈ l, e ∈ all ∧ sel e = u) →
        ∀ s : ScouterSt,
          (((all.map oth).toFinset \ s.nodeIds).card < fuel + 1) →
          (∀ v ∈ s.nodeIds, v ≠ center ∧ ScReach all sel oth center v) →
          (s.nodeIds ⊆ (l.foldl (scouterStep all center sel oth fuel) s).nodeIds ∧
            s.edgeIds ⊆ (l.foldl (scouterStep all center sel oth fuel) s).edgeIds ∧
            (∀ v ∈ (l.foldl (scouterStep all center sel oth fuel) s).nodeIds,
              v ≠ center ∧ ScReach all sel oth center v) ∧
            (∀ e ∈ l, e.id ∈ (l.foldl (scouterStep all center sel oth fuel) s).edgeIds ∧
              (oth e ∈ (l.foldl (scouterStep all center sel oth fuel) s).nodeIds ∨
                oth e = center)) ∧
            (∀ v ∈ (l.foldl (scouterStep all center sel oth fuel) s).nodeIds,
              v ∉ s.nodeIds →
              ScProcessed all center sel oth v
                (l.foldl (scouterStep all center sel oth fuel) s))) := by
      intro l
      induction l with
      | nil =>
        intro _ s _ hs
        refine ⟨Finset.Subset.refl _, Finset.Subset.refl _, hs, by simp, ?_⟩
        intro v hv hnv
        exact absurd hv hnv
      | cons e rest ihl =>
        intro hl s hfs hs
        obtain ⟨heall, hesel⟩ := hl e (List.mem_cons_self _ _)
        rw [List.foldl_cons]
        by_cases hcond : oth e ∉ s.nodeIds ∧ oth e ≠ center
        · rw [scouterStep_pos all center sel oth fuel s e hcond]
          have hOthT : oth e ∈ (all.map oth).toFinset :=
            List.mem_toFinset.mpr (List.mem_map_of_mem oth heall)
          have hmem' : oth e ∈ (all.map oth).toFinset \ s.nodeIds :=
            Finset.mem_sdiff.mpr ⟨hOthT, hcond.1⟩
          have hcard2 : (((all.map oth).toFinset \ insert (oth e) s.nodeIds).card < fuel) := by
            rw [Finset.sdiff_insert]
            have hpos : 0 < ((all.map oth).toFinset \ s.nodeIds).card :=
              Finset.card_pos.mpr ⟨_, hmem'⟩
            have hle := Finset.card_erase_of_mem hmem'
            omega
          have hreach2 : ScReach all sel oth center (oth e) :=
            Relation.ReflTransGen.tail hreach ⟨e, heall, hesel, rfl⟩
          have hsound2 : ∀ v ∈ (⟨insert (oth e) s.nodeIds, insert e.id s.edgeIds⟩ :
              ScouterSt).nodeIds, v ≠ center ∧ ScReach all sel oth center v := by
            intro v hv
            rcases Finset.mem_insert.mp hv with hv1 | hv1
            · rw [hv1]
              exact ⟨hcond.2, hreach2⟩
            · exact hs v hv1
          obtain ⟨m1, m2, dsound, dproc, dnew⟩ := ih (oth e)
            ⟨insert (oth e) s.nodeIds, insert e.id s.edgeIds⟩ hcard2 hreach2 hsound2
          set sD := scouterVisit all center sel oth fuel (oth e)
            ⟨insert (oth e) s.nodeIds, insert e.id s.edgeIds⟩ with hsD
          have hfsD : (((all.map oth).toFinset \ sD.nodeIds).card < fuel + 1) := by
            have hsub : ((all.map oth).toFinset \ sD.nodeIds) ⊆
                ((all.map oth).toFinset \ (insert (oth e) s.nodeIds)) := by
              intro x hx
              rcases Finset.mem_sdiff.mp hx with ⟨hx1, hx2⟩
              exact Finset.mem_sdiff.mpr ⟨hx1, fun hx3 => hx2 (m1 hx3)⟩
            have := Finset.card_le_card hsub
            omega
          obtain ⟨f1, f2, fsound, fpend, fnew⟩ := ihl
            (fun e' he' => hl e' (List.mem_cons_of_mem _ he')) sD hfsD dsound
          set sF := rest.foldl (scouterStep all center sel oth fuel) sD with hsF
          have hn1 : s.nodeIds ⊆ sF.nodeIds := by
            intro x hx
            exact f1 (m1 (Finset.mem_insert_of_mem hx))
          have he1 : s.edgeIds ⊆ sF.edgeIds := by
            intro x hx
            exact f2 (m2 (Finset.mem_insert_of_mem hx))
          refine ⟨hn1, he1, fsound, ?_, ?_⟩
          · intro e' he'
            rcases List.mem_cons.mp he' with he'1 | he'1
            · subst he'1
              refine ⟨f2 (m2 (Finset.mem_insert_self _ _)), Or.inl ?_⟩
              exact f1 (m1 (Finset.mem_insert_self _ _))
            · exact fpend e' he'1
          · intro v hv hnv
            by_cases hvD : v ∈ sD.nodeIds
            · by_cases hv2 : v ∈ (insert (oth e) s.nodeIds : Finset String)
              · have hveq : v = oth e := by
                  rcases Finset.mem_insert.mp hv2 with h | h
                  · exact h
                  · exact absurd h hnv
                rw [hveq]
                exact scProcessed_mono dproc f1 f2
              · exact scProcessed_mono (dnew v hvD hv2) f1 f2
            · exact fnew v hv hvD
        · rw [scouterStep_neg all center sel oth fuel s e hcond]
          have hfs1 : (((all.map oth).toFinset \
              (⟨s.nodeIds, insert e.id s.edgeIds⟩ : ScouterSt).nodeIds).card < fuel + 1) := hfs
          have hs1 : ∀ v ∈ (⟨s.nodeIds, insert e.id s.edgeIds⟩ : ScouterSt).nodeIds,
              v ≠ center ∧ ScReach all sel oth center v := hs
          obtain ⟨f1, f2, fsound, fpend, fnew⟩ := ihl
            (fun e' he' => hl e' (List.mem_cons_of_mem _ he'))
            ⟨s.nodeIds, insert e.id s.edgeIds⟩ hfs1 hs1
          refine ⟨f1, ?_, fsound, ?_, ?_⟩
          · intro x hx
            exact f2 (Finset.mem_insert_of_mem hx)
          · intro e' he'
            rcases List.mem_cons.mp he' with he'1 | he'1
            · subst he'1
              refine ⟨f2 (Finset.mem_insert_self _ _), ?_⟩
              rcases not_and_or.mp hcond with h | h
              · exact Or.inl (f1 (not_not.mp h))
              · exact Or.inr (not_not.mp h)
            · exact fpend e' he'1
          · intro v hv hnv
            exact fnew v hv hnv
    rw [scouterVisit_unfold]
    obtain ⟨f1, f2, fsound, fpend, fnew⟩ := haux (all.filter (fun e => sel e = u))
      (fun e he => ⟨(List.mem_filter.mp he).1, by simpa using (List.mem_filter.mp he).2⟩)
      st (by omega) hsound
    refine ⟨f1, f2, fsound, ?_, fnew⟩
    intro e hea hsel
    exact fpend e (List.mem_filter.mpr ⟨hea, by simpa using hsel⟩)

lemma scouterVisit_characterization (all : List FlowEdge) (center : String)
    (sel oth : FlowEdge → String) (E0 : Finset String) :
    (∀ v, v ∈ (scouterVisit all center sel oth (all.length + 1) center
        ⟨∅, E0⟩).nodeIds ↔ (v ≠ center ∧ ScReach all sel oth center v)) ∧
    (∀ e ∈ all, ScReach all sel oth center (sel e) →
      e.id ∈ (scouterVisit all center sel oth (all.length + 1) center ⟨∅, E0⟩).edgeIds) ∧
    E0 ⊆ (scouterVisit all center sel oth (all.length + 1) center ⟨∅, E0⟩).edgeIds := by
  have hcard : (((all.map oth).toFinset \ (∅ : Finset String)).card < all.length + 1) := by
    rw [Finset.sdiff_empty]
    have h1 := List.toFinset_card_le (all.map oth)
    have h2 : (all.map oth).length = all.length := List.length_map _ _
    omega
  obtain ⟨m1, m2, hsound, hproc, hnew⟩ := scouterVisit_main all center sel oth
    (all.length + 1) center ⟨∅, E0⟩ hcard Relation.ReflTransGen.refl (by simp)
  set R := scouterVisit all center sel oth (all.length + 1) center ⟨∅, E0⟩ with hRdef
  have hcomplete : ∀ v, ScReach all sel oth center v → v ≠ center → v ∈ R.nodeIds := by
    intro v hr
    induction hr with
    | refl =>
      intro hne
      exact absurd rfl hne
    | @tail b c hab hbc ihr =>
      intro hne
      obtain ⟨e, heall, hesel, heoth⟩ := hbc
      by_cases hbcen : b = center
      · have hpr := hproc e heall (by rw [hesel, hbcen])
        rcases hpr.2 with h | h
        · rw [← heoth]
          exact h
        · exact absurd (heoth ▸ h) hne
      · have hb := ihr hbcen
        have hpb := hnew _ hb (by simp)
        rcases (hpb e heall hesel).2 with h | h
        · rw [← heoth]
          exact h
        · exact absurd (heoth ▸ h) hne
  refine ⟨?_, ?_, m2⟩
  · intro v
    constructor
    · intro hv
      exact hsound v hv
    · rintro ⟨hne, hr⟩
      exact hcomplete v hr hne
  · intro e hea hr
    by_cases hsc : sel e = center
    · exact (hproc e hea hsc).1
    · have hmem : sel e ∈ R.nodeIds := hcomplete (sel e) hr hsc
      exact ((hnew _ hmem (by simp)) e hea rfl).1

lemma scStep_src_tgt (es : List FlowEdge) (a b : String) :
    ScStep es FlowEdge.source FlowEdge.target a b ↔ EdgeStep es a b := Iff.rfl

lemma scReach_src_tgt (es : List FlowEdge) (a b : String) :
    ScReach es FlowEdge.source FlowEdge.target a b ↔
      Relation.ReflTransGen (EdgeStep es) a b := Iff.rfl

lemma scStep_tgt_src (es : List FlowEdge) (a b : String) :
    ScStep es FlowEdge.target FlowEdge.source a b ↔ EdgeStep es b a := by
  constructor
  · rintro ⟨e, he, h1, h2⟩
    exact ⟨e, he, h2, h1⟩
  · rintro ⟨e, he, h1, h2⟩
    exact ⟨e, he, h2, h1⟩

lemma scReach_tgt_src (es : List FlowEdge) (a b : String) :
    ScReach es FlowEdge.target FlowEdge.source a b ↔
      Relation.ReflTransGen (EdgeStep es) b a := by
  constructor
  · intro h
    refine Relation.reflTransGen_swap.mp ?_
    exact Relation.ReflTransGen.mono
      (fun x y hxy => (scStep_tgt_src es x y).mp hxy) h
  · intro h
    have h2 := Relation.reflTransGen_swap.mpr h
    exact Relation.ReflTransGen.mono
      (fun x y hxy => (scStep_tgt_src es x y).mpr hxy) h2

/-- C6: with `showAllDescendants = true` (and the center present, so the call
returns `ok`), `dependencyNodes` is exactly the set of supplied nodes whose
id is forward-reachable from the center (center excluded), `dependentNodes`
is exactly the set of supplied nodes whose id reaches the center by forward
edges (center excluded), and `relatedEdges` contains every edge traversed in
either direction — every edge whose source is forward-reachable from the
center and every edge whose target reaches the center. -/
theorem extractRelatedNodes_closure (centerNodeId : String) (ns : List FlowNode)
    (es : List FlowEdge) (R : RelatedNodes)
    (h : extractRelatedNodes centerNodeId ns es ⟨some true⟩ = .ok R) :
    (∀ n : FlowNode, n ∈ R.dependencyNodes ↔
      n ∈ ns ∧ n.id ≠ centerNodeId ∧
        Relation.ReflTransGen (EdgeStep es) centerNodeId n.id) ∧
    (∀ n : FlowNode, n ∈ R.dependentNodes ↔
      n ∈ ns ∧ n.id ≠ centerNodeId ∧
        Relation.ReflTransGen (EdgeStep es) n.id centerNodeId) ∧
    (∀ e ∈ es, (Relation.ReflTransGen (EdgeStep es) centerNodeId e.source ∨
      Relation.ReflTransGen (EdgeStep es) e.target centerNodeId) →
      e ∈ R.relatedEdges) := by
  have hR : R = extractAllDescendants centerNodeId ns es := by
    unfold extractRelatedNodes at h
    cases hfind : ns.find? (fun n => n.id = centerNodeId) with
    | none =>
      rw [hfind] at h
      simp at h
    | some c =>
      rw [hfind] at h
      simp at h
      exact h.symm
  subst hR
  obtain ⟨fN, fE, fM⟩ := scouterVisit_characterization es centerNodeId
    FlowEdge.source FlowEdge.target ∅
  obtain ⟨bN, bE, bM⟩ := scouterVisit_characterization es centerNodeId
    FlowEdge.target FlowEdge.source
    (scouterVisit es centerNodeId FlowEdge.source FlowEdge.target
      (es.length + 1) centerNodeId ⟨∅, ∅⟩).edgeIds
  have hdep : (extractAllDescendants centerNodeId ns es).dependencyNodes =
      ns.filter (fun n => n.id ∈ (scouterVisit es centerNodeId FlowEdge.source
        FlowEdge.target (es.length + 1) centerNodeId ⟨∅, ∅⟩).nodeIds) := rfl
  have hdept : (extractAllDescendants centerNodeId ns es).dependentNodes =
      ns.filter (fun n => n.id ∈ (scouterVisit es centerNodeId FlowEdge.target
        FlowEdge.source (es.length + 1) centerNodeId
        ⟨∅, (scouterVisit es centerNodeId FlowEdge.source FlowEdge.target
          (es.length + 1) centerNodeId ⟨∅, ∅⟩).edgeIds⟩).nodeIds) := rfl
  have hrel : (extractAllDescendants centerNodeId ns es).relatedEdges =
      es.filter (fun e => e.id ∈ (scouterVisit es centerNodeId FlowEdge.target
        FlowEdge.source (es.length + 1) centerNodeId
        ⟨∅, (scouterVisit es centerNodeId FlowEdge.source FlowEdge.target
          (es.length + 1) centerNodeId ⟨∅, ∅⟩).edgeIds⟩).edgeIds) := rfl
  refine ⟨?_, ?_, ?_⟩
  · intro n
    rw [hdep, List.mem_filter]
    constructor
    · rintro ⟨hn, hmem⟩
      have := (fN n.id).mp (by simpa using hmem)
      exact ⟨hn, this.1, (scReach_src_tgt es centerNodeId n.id).mp this.2⟩
    · rintro ⟨hn, hne, hr⟩
      refine ⟨hn, ?_⟩
      simpa using (fN n.id).mpr ⟨hne, (scReach_src_tgt es centerNodeId n.id).mpr hr⟩
  · intro n
    rw [hdept, List.mem_filter]
    constructor
    · rintro ⟨hn, hmem⟩
      have := (bN n.id).mp (by simpa using hmem)
      exact ⟨hn, this.1, (scReach_tgt_src es centerNodeId n.id).mp this.2⟩
    · rintro ⟨hn, hne, hr⟩
      refine ⟨hn, ?_⟩
      simpa using (bN n.id).mpr ⟨hne, (scReach_tgt_src es centerNodeId n.id).mpr hr⟩
  · intro e hea hdisj
    rw [hrel, List.mem_filter]
    refine ⟨hea, ?_⟩
    rcases hdisj with hfwd | hbwd
    · have : e.id ∈ (scouterVisit es centerNodeId FlowEdge.source FlowEdge.target
          (es.length + 1) centerNodeId ⟨∅, ∅⟩).edgeIds :=
        fE e hea ((scReach_src_tgt es centerNodeId e.source).mpr hfwd)
      simpa using bM this
    · have : e.id ∈ (scouterVisit es centerNodeId FlowEdge.target FlowEdge.source
          (es.length + 1) centerNodeId
          ⟨∅, (scouterVisit es centerNodeId FlowEdge.source FlowEdge.target
            (es.length + 1) centerNodeId ⟨∅, ∅⟩).edgeIds⟩).edgeIds :=
        bE e hea ((scReach_tgt_src es centerNodeId e.target).mpr hbwd)
      simpa using this

/-- C6 witness: extracting at `A` in the chain `D→C→B→A` (with
`showAllDescendants = true`) yields `D` among the dependent nodes. -/
theorem extractRelatedNodes_closure_witness :
    (⟨"D", 0, 0⟩ : FlowNode) ∈
      (extractAllDescendants "A" scouterChainNodes scouterChainEdges).dependentNodes := by
  have h := extractRelatedNodes_closure "A" scouterChainNodes scouterChainEdges
    (extractAllDescendants "A" scouterChainNodes scouterChainEdges) rfl
  refine (h.2.1 ⟨"D", 0, 0⟩).mpr ⟨by decide, by decide, ?_⟩
  have s1 : EdgeStep scouterChainEdges "D" "C" := ⟨⟨"D-C", "D", "C"⟩, by decide, rfl, rfl⟩
  have s2 : EdgeStep scouterChainEdges "C" "B" := ⟨⟨"C-B", "C", "B"⟩, by decide, rfl, rfl⟩
  have s3 : EdgeStep scouterChainEdges "B" "A" := ⟨⟨"B-A", "B", "A"⟩, by decide, rfl, rfl⟩
  exact Relation.ReflTransGen.head s1 (Relation.ReflTransGen.head s2
    (Relation.ReflTransGen.single s3))

lemma buildChildrenMap_pred (P : String → Prop) :
    ∀ (es : List FlowEdge) (m : JsMap (List String)),
      (∀ src l, mapGet m src = some l → ∀ c ∈ l, P c) →
      (∀ e ∈ es, P e.target) →
      ∀ src l, mapGet (es.foldl (fun m e =>
          mapSet m e.source ((mapGet m e.source).getD [] ++ [e.target])) m) src = some l →
        ∀ c ∈ l, P c := by
  intro es
  induction es with
  | nil =>
    intro m hm _ src l hget c hc
    exact hm src l hget c hc
  | cons e rest ih =>
    intro m hm hes src l hget c hc
    rw [List.foldl_cons] at hget
    refine ih _ ?_ (fun e' he' => hes e' (List.mem_cons_of_mem _ he')) src l hget c hc
    intro src' l' hget' c' hc'
    by_cases hsrc : src' = e.source
    · rw [hsrc] at hget'
      rw [mapGet_set_self] at hget'
      have hl' : l' = (mapGet m e.source).getD [] ++ [e.target] :=
        (Option.some.injEq _ _ ▸ hget').symm
      rw [hl'] at hc'
      rcases List.mem_append.mp hc' with h | h
      · cases hold : mapGet m e.source with
        | none => rw [hold] at h; simp at h
        | some l0 =>
          rw [hold] at h
          exact hm e.source l0 hold c' (by simpa using h)
      · rw [List.mem_singleton.mp h]
        exact hes e (List.mem_cons_self _ _)
    · rw [mapGet_set_ne _ _ _ _ hsrc] at hget'
      exact hm src' l' hget' c' hc'

lemma getD_zero_of_all {o : Option Nat} (h : ∀ v, o = some v → v = 0) :
    o.getD 0 = 0 := by
  cases o with
  | none => rfl
  | some v => simpa using h v rfl

lemma bfsLoop_zero_level (cm : JsMap (List String)) (nid : String)
    (hcm : ∀ src l, mapGet cm src = some l → nid ∉ l) :
    ∀ (fuel : Nat) (q : List (String × Nat)) (levels : JsMap Nat),
      (∀ p ∈ q, p.1 = nid → p.2 = 0) →
      (∀ v, mapGet levels nid = some v → v = 0) →
      ∀ v, mapGet (bfsLoop cm fuel q levels) nid = some v → v = 0 := by
  intro fuel
  induction fuel with
  | zero =>
    intro q levels _ hl
    exact hl
  | succ fuel ih =>
    intro q levels hq hl
    cases q with
    | nil => exact hl
    | cons p rest =>
      obtain ⟨id, level⟩ := p
      rw [show bfsLoop cm (fuel + 1) ((id, level) :: rest) levels =
          bfsLoop cm fuel
            (rest ++ (((mapGet cm id).getD []).filter
              (fun c => (mapGet (mapSet levels id level) c).isNone)).map
              (fun c => (c, level + 1)))
            (mapSet levels id level) from rfl]
      apply ih
      · intro p' hp' hpid
        rcases List.mem_append.mp hp' with h | h
        · exact hq p' (List.mem_cons_of_mem _ h) hpid
        · exfalso
          rcases List.mem_map.mp h with ⟨c, hc, hpc⟩
          have hcn : c = nid := by rw [← hpc] at hpid; exact hpid
          have hcc : c ∈ (mapGet cm id).getD [] := List.mem_of_mem_filter hc
          cases hcm2 : mapGet cm id with
          | none => rw [hcm2] at hcc; simp at hcc
          | some l0 =>
            rw [hcm2] at hcc
            exact hcm id l0 hcm2 (hcn ▸ hcc)
      · intro v hv
        by_cases hid : id = nid
        · subst hid
          rw [mapGet_set_self] at hv
          have hz := hq (id, level) (List.mem_cons_self _ _) rfl
          have hveq : level = v := Option.some.injEq _ _ ▸ hv
          rw [← hveq]
          exact hz
        · rw [mapGet_set_ne _ _ _ _ (fun hh => hid hh.symm)] at hv
          exact hl v hv

lemma treeLevels_isolated (nodes : List FlowNode) (edges : List FlowEdge)
    (n : FlowNode) (hiso : ∀ e ∈ edges, e.source ≠ n.id ∧ e.target ≠ n.id) :
    (mapGet (treeLevels nodes edges) n.id).getD 0 = 0 := by
  have hcm : ∀ src l, mapGet (buildChildrenMap edges) src = some l → n.id ∉ l := by
    intro src l hget hmem
    exact buildChildrenMap_pred (fun c => c ≠ n.id) edges []
      (by intro src' l' h; simp [mapGet] at h)
      (fun e he => (hiso e he).2) src l hget n.id hmem rfl
  have hT : treeLevels nodes edges =
      bfsLoop (buildChildrenMap edges)
        ((edges.length + 2) ^ (nodes.length + 1) + nodes.length + 1)
        ((nodes.filter (fun n' => !(edges.map (·.target)).contains n'.id)).map
          (fun n' => (n'.id, 0))) [] := rfl
  rw [hT]
  refine getD_zero_of_all ?_
  refine bfsLoop_zero_level (buildChildrenMap edges) n.id hcm _ _ _ ?_ ?_
  · intro p hp _
    rcases List.mem_map.mp hp with ⟨n', _, h⟩
    rw [← h]
  · intro v hv
    simp [mapGet] at hv

/-- C7 fails as stated: in the diamond `A→B, A→C, B→C`, first-visit-wins
BFS gives `C` level 1 (so `y` would be 250), but the loop enqueues `C`
twice before first processing it and the later dequeue overwrites, so the
code assigns `C` level 2 and `y = 450`. -/
theorem applyTreeLayout_counterexample :
    specFirstVisitLevel diamondFlowNodes diamondFlowEdges "C" = some 1 ∧
    mapGet (treeLevels diamondFlowNodes diamondFlowEdges) "C" = some 2 ∧
    (applyTreeLayout diamondFlowNodes diamondFlowEdges).map (fun n => (n.id, n.y)) =
      [("A", 50), ("B", 250), ("C", 450)] ∧
    (450 : ℚ) ≠ (1 : ℚ) * 200 + 50 := by
  refine ⟨by decide, by decide, ?_, by norm_num⟩
  have hlev : treeLevels diamondFlowNodes diamondFlowEdges =
      [("A", 0), ("B", 1), ("C", 2)] := by decide
  simp only [applyTreeLayout, hlev]
  norm_num [diamondFlowNodes, mapGet, jsIndexOf, List.findIdx?, List.filter,
    show ("A" : String) ≠ "B" by decide, show ("A" : String) ≠ "C" by decide,
    show ("B" : String) ≠ "C" by decide]

/-- C7 amended: the tree layout assigns levels by the BFS loop in which an
already-leveled node is never re-enqueued, but a node queued more than once
before its first processing is processed repeatedly and the level of its
last queue entry wins; every node is positioned at `y = level·200 + 50`
(level 0 when unleveled); for the chain `A→B→C` the levels are 0,1,2 and
the `y` coordinates 50, 250, 450; and a node with no incident edge at all
keeps level 0. -/
theorem applyTreeLayout_amended :
    ((applyTreeLayout chainFlowNodes chainFlowEdges).map (fun n => (n.id, n.y)) =
      [("A", 50), ("B", 250), ("C", 450)]) ∧
    treeLevels chainFlowNodes chainFlowEdges = [("A", 0), ("B", 1), ("C", 2)] ∧
    (∀ (nodes : List FlowNode) (edges : List FlowEdge) (p : FlowNode),
      p ∈ applyTreeLayout nodes edges →
      p.y = ((mapGet (treeLevels nodes edges) p.id).getD 0 : ℚ) * 200 + 50) ∧
    (∀ (nodes : List FlowNode) (edges : List FlowEdge) (n : FlowNode),
      (∀ e ∈ edges, e.source ≠ n.id ∧ e.target ≠ n.id) →
      (mapGet (treeLevels nodes edges) n.id).getD 0 = 0) := by
  have hlev : treeLevels chainFlowNodes chainFlowEdges =
      [("A", 0), ("B", 1), ("C", 2)] := by decide
  refine ⟨?_, hlev, ?_, ?_⟩
  · simp only [applyTreeLayout, hlev]
    norm_num [chainFlowNodes, mapGet, jsIndexOf, List.findIdx?, List.filter,
      show ("A" : String) ≠ "B" by decide, show ("A" : String) ≠ "C" by decide,
      show ("B" : String) ≠ "C" by decide]
  · intro nodes edges p hp
    simp only [applyTreeLayout, List.mem_map] at hp
    obtain ⟨n, _, hp⟩ := hp
    rw [← hp]
  · intro nodes edges n hiso
    exact treeLevels_isolated nodes edges n hiso

/-- C7 witness: on the isolated node `Z` with no edges the level is 0 and
the positioned node sits at `y = 50`. -/
theorem applyTreeLayout_amended_witness :
    (mapGet (treeLevels [⟨"Z", 0, 0⟩] ([] : List FlowEdge)) "Z").getD 0 = 0 ∧
    (⟨"Z", 300, 50⟩ : FlowNode).y =
      ((mapGet (treeLevels [⟨"Z", 0, 0⟩] ([] : List FlowEdge)) "Z").getD 0 : ℚ) * 200 + 50 := by
  have hlevZ : treeLevels [⟨"Z", 0, 0⟩] ([] : List FlowEdge) = [("Z", 0)] := by decide
  have hmem : (⟨"Z", 300, 50⟩ : FlowNode) ∈ applyTreeLayout [⟨"Z", 0, 0⟩] [] := by
    have h0 : applyTreeLayout [⟨"Z", 0, 0⟩] [] = [⟨"Z", 300, 50⟩] := by
      simp only [applyTreeLayout, hlevZ]
      norm_num [mapGet, jsIndexOf, List.findIdx?, List.filter]
    rw [h0]
    exact List.mem_singleton.mpr rfl
  refine ⟨applyTreeLayout_amended.2.2.2 [⟨"Z", 0, 0⟩] [] ⟨"Z", 0, 0⟩ (by simp), ?_⟩
  exact applyTreeLayout_amended.2.2.1 [⟨"Z", 0, 0⟩] [] ⟨"Z", 300, 50⟩ hmem

end ReUntangle
